import Mathlib

/-!
Verification of the depth-computation engine of the dbt-depthy editor
extension.

The development shallowly embeds the two versions of `manifestParser.ts`
found in the repository:

* `calculateModelDepths` — the Kahn-style topological propagation over the
  filtered model graph (the engine the specification describes, and the one
  the repository's unit tests exercise);
* `calculateModelDepthsBFS` — the older per-node breadth-first variant of
  `calculateModelDepths` whose inner helper is `calculateDepth`;

together with the shared lookup `getModelDepth`, the refresh workflow
`refreshManifest`, and the display layer of `decorationProvider.ts`
(`createDepthDecoration` and the hover text).

JavaScript `Map` objects and plain JSON objects are embedded as association
lists in insertion order (`JMap`): `jset` updates an existing key in place,
keeping its original iteration position, exactly as `Map.set` does, and
appends new keys at the end.  The internal `depths` and `inDegree` maps of
the Kahn loop are embedded as total functions updated pointwise; the code
only ever reads them at participating model ids, where they are always
initialised, so the function view agrees with the `Map` view on every
access the program performs.  `inDegree` is carried as an `Int` because
JavaScript numbers go negative on over-decrement.

The `while (queue.length > 0)` loop is embedded with an explicit fuel
argument; `kahnRun_fuel_spec` below proves that the chosen fuel
(`models.length + 1`) always reaches the empty-queue fixed point, so the
fuel-based function computes exactly what the unbounded loop computes.
The state additionally carries `procd`, a ghost trace of the dequeued
nodes; it influences nothing the program computes and exists only to state
theorems about which nodes the loop finalises.
-/

set_option maxHeartbeats 1000000

namespace Depthy

/-- Association list embedding of a JavaScript `Map` / JSON object, in
insertion order. -/
abbrev JMap (α β : Type) : Type := List (α × β)

/-- Lookup in a `JMap` (JavaScript `Map.get`, `undefined` becomes `none`). -/
def jget {α β : Type} [DecidableEq α] : JMap α β → α → Option β
  | [], _ => none
  | (a, b) :: t, k => if a = k then some b else jget t k

/-- JavaScript `Map.set`: update an existing key in place (keeping its
iteration position) or append a new key. -/
def jset {α β : Type} [DecidableEq α] : JMap α β → α → β → JMap α β
  | [], k, v => [(k, v)]
  | (a, b) :: t, k, v => if a = k then (a, v) :: t else (a, b) :: jset t k v

/-- The keys of a `JMap`, in iteration order. -/
def jkeys {α β : Type} (m : JMap α β) : List α := m.map Prod.fst

/-- A node record of `manifest.json` as typed by the `DbtNode` interface.
`depends_on.nodes` is flattened to a plain list; the depth engine never
reads it (it works from `parent_map`). -/
structure DbtNode where
  unique_id : String
  depends_on_nodes : List String
  name : String
  resource_type : String
  package_name : String
deriving DecidableEq, Repr

/-- The manifest as typed by the `DbtManifest` interface.  `nodes` keeps the
`Object.entries` iteration order of the JSON object. -/
structure DbtManifest where
  nodes : JMap String DbtNode
  child_map : JMap String (List String)
  parent_map : JMap String (List String)
deriving DecidableEq, Repr

/-- The `{ name, id }` pairs collected into the `models` array. -/
structure ModelRef where
  name : String
  id : String
deriving DecidableEq, Repr

/-- The `models` collection loop: keep exactly the nodes whose
`resource_type` is `'model'`, in manifest order. -/
def modelsFrom (nodes : JMap String DbtNode) : List ModelRef :=
  nodes.filterMap
    (fun kv => if kv.2.resource_type = "model" then some ⟨kv.2.name, kv.1⟩ else none)

/-- Participating nodes of a manifest. -/
def modelsOf (M : DbtManifest) : List ModelRef := modelsFrom M.nodes

/-- The ids of the participating nodes, in manifest order. -/
def modelIds (M : DbtManifest) : List String := (modelsOf M).map ModelRef.id

/-- JavaScript `s.startsWith(pre)`, computed on the character sequence (the
same boolean as `String.startsWith`, stated on `String.data` so that
concrete runs reduce inside the kernel). -/
def strStartsWith (s pre : String) : Bool := pre.data.isPrefixOf s.data

/-- JavaScript `s.endsWith(post)`, computed on the character sequence (the
same boolean as `String.endsWith`). -/
def strEndsWith (s post : String) : Bool := post.data.isSuffixOf s.data

/-- `this.manifest.parent_map[model.id] || []`. -/
def rawParents (M : DbtManifest) (id : String) : List String :=
  (jget M.parent_map id).getD []

/-- `parents.filter(parent => parent.startsWith('model.'))`. -/
def filteredParents (M : DbtManifest) (id : String) : List String :=
  (rawParents M id).filter (fun p => strStartsWith p "model.")

/-- The `parentGraph` map: one `set(model.id, parentModels)` per model. -/
def buildParentGraph (M : DbtManifest) : JMap String (List String) :=
  (modelsOf M).foldl (fun g mo => jset g mo.id (filteredParents M mo.id)) []

/-- `parentGraph.get(id) || []`. -/
def parentsLookup (M : DbtManifest) (id : String) : List String :=
  (jget (buildParentGraph M) id).getD []

/-- `if (!childGraph.has(k)) childGraph.set(k, [])`. -/
def ensureEntry (g : JMap String (List String)) (k : String) : JMap String (List String) :=
  if (jget g k).isSome then g else jset g k []

/-- The `childGraph` map: for every model, append its id to each retained
parent's child list (creating the entry if needed), then make sure the
model itself has an entry. -/
def buildChildGraph (M : DbtManifest) : JMap String (List String) :=
  (modelsOf M).foldl
    (fun g mo =>
      ensureEntry
        ((filteredParents M mo.id).foldl
          (fun gg p => jset gg p ((jget gg p).getD [] ++ [mo.id])) g)
        mo.id) []

/-- `childGraph.get(id) || []`. -/
def childrenOf (M : DbtManifest) (u : String) : List String :=
  (jget (buildChildGraph M) u).getD []

/-- Pointwise update of a function-embedded map. -/
def upd {α β : Type} [DecidableEq α] (f : α → β) (k : α) (v : β) : α → β :=
  fun x => if x = k then v else f x

/-- State of the topological-propagation loop.  `d` is the `depths` map,
`g` the `inDegree` map, `q` the work queue; `procd` is a ghost trace of the
dequeued nodes, used only in the statements of theorems. -/
structure KState where
  d : String → Nat
  g : String → Int
  q : List String
  procd : List String

/-- One iteration of the inner `for (const childId of children)` loop:
raise the child's depth to `max(depth, currentDepth + 1)`, decrement its
in-degree, and enqueue it when the in-degree reaches zero. -/
def stepChild (du : Nat) (st : KState) (c : String) : KState :=
  let nd := max (st.d c) (du + 1)
  let ng := st.g c - 1
  { d := upd st.d c nd
    g := upd st.g c ng
    q := if ng = 0 then st.q ++ [c] else st.q
    procd := st.procd }

/-- Processing of one dequeued node: read its depth once, then run the
child loop; the ghost trace records the node. -/
def runNode (ch : String → List String) (st : KState) (u : String) : KState :=
  let du := st.d u
  let st1 := (ch u).foldl (stepChild du) st
  { st1 with procd := st1.procd ++ [u] }

/-- The `while (queue.length > 0)` loop, with explicit fuel. -/
def kahnRun (ch : String → List String) : Nat → KState → KState
  | 0, st => st
  | n + 1, st =>
    match st.q with
    | [] => st
    | u :: rest => kahnRun ch n (runNode ch { st with q := rest } u)

/-- Initialisation of `depths`, `inDegree` and the root queue.  The source
fills `depths` and `inDegree` in one loop over `models` and seeds the queue
in a second loop; the folds below compute the same maps. -/
def initState (M : DbtManifest) : KState :=
  let models := modelsOf M
  let d0 : String → Nat := models.foldl
    (fun f mo => upd f mo.id (if (parentsLookup M mo.id).length = 0 then 1 else 0))
    (fun _ => 0)
  let g0 : String → Int := models.foldl
    (fun f mo => upd f mo.id ((parentsLookup M mo.id).length : Int))
    (fun _ => 0)
  { d := d0, g := g0
    q := (models.filter (fun mo => g0 mo.id = 0)).map ModelRef.id
    procd := [] }

/-- The state after the topological loop has drained the queue (the fuel
`models.length + 1` is proved sufficient below). -/
def kahnState (M : DbtManifest) : KState :=
  kahnRun (childrenOf M) ((modelsOf M).length + 1) (initState M)

/-- The value `depths.get(model.id)!` read back by the publication loop. -/
def finalDepth (M : DbtManifest) (id : String) : Nat := (kahnState M).d id

/-- `calculateModelDepths` of the topological (Kahn) version: compute the
depths and publish `name → depth` and `id → depth` for every model, in
model order, into a freshly cleared table. -/
def calculateModelDepths (M : DbtManifest) : JMap String Nat :=
  (modelsOf M).foldl
    (fun t mo => jset (jset t mo.name (finalDepth M mo.id)) mo.id (finalDepth M mo.id))
    []

/-- The per-node breadth-first search of the older `calculateDepth`: a FIFO
queue of `(id, depth)` pairs, a visited set, and a running maximum, with
explicit fuel (`bfsFuel` below is larger than the number of iterations the
search can perform). -/
def bfsRun (pf : String → List String) :
    Nat → List String → List (String × Nat) → Nat → Nat
  | 0, _, _, maxD => maxD
  | _ + 1, _, [], maxD => maxD
  | n + 1, visited, (id, depth) :: rest, maxD =>
    if id ∈ visited then bfsRun pf n visited rest maxD
    else
      bfsRun pf n (visited ++ [id])
        (rest ++ (pf id).map (fun p => (p, depth + 1))) (max maxD depth)

/-- Fuel bound for the breadth-first search: one more than the start entry
plus one visit and one queue entry per filtered edge and per model. -/
def bfsFuel (M : DbtManifest) : Nat :=
  2 + (modelsOf M).length
    + ((modelsOf M).map (fun mo => (filteredParents M mo.id).length)).sum

/-- `calculateDepth(startNodeId)` of the BFS version. -/
def calculateDepthBFS (M : DbtManifest) (start : String) : Nat :=
  bfsRun (parentsLookup M) (bfsFuel M) [] [(start, 0)] 0

/-- `calculateModelDepths` of the BFS version: every model is first
published with depth `0` during collection, then overwritten with its BFS
depth. -/
def calculateModelDepthsBFS (M : DbtManifest) : JMap String Nat :=
  let models := modelsOf M
  let t0 := models.foldl (fun t mo => jset (jset t mo.name 0) mo.id 0) []
  models.foldl
    (fun t mo =>
      jset (jset t mo.name (calculateDepthBFS M mo.id)) mo.id (calculateDepthBFS M mo.id))
    t0

/-- `getModelDepth`: exact lookup first, then the first table key (in
iteration order) ending with `"." + modelName`, else `undefined`. -/
def getModelDepth (t : JMap String Nat) (modelName : String) : Option Nat :=
  match jget t modelName with
  | some d => some d
  | none =>
    (t.find? (fun kv => strEndsWith kv.1 ("." ++ modelName))).map Prod.snd

/-- A `parent_map` value as it can actually arrive from `JSON.parse` (the
`as DbtManifest` cast does not validate): either a genuine array of ids, or
some non-array JSON value, recorded by its JavaScript truthiness. -/
inductive PMVal where
  | arr (xs : List String)
  | nonArr (truthy : Bool)
deriving DecidableEq, Repr

/-- A manifest as it can actually arrive from `JSON.parse`: the
`parent_map` property may be absent (`none`) or carry non-array entries.
`child_map` is never read and is omitted. -/
structure DynManifest where
  nodes : JMap String DbtNode
  parent_map : Option (JMap String PMVal)
deriving DecidableEq, Repr

/-- Evaluation of `this.manifest.parent_map[model.id] || []` under
JavaScript semantics: reading a property of `undefined` throws; an absent
or falsy entry degrades to `[]`; a truthy non-array entry survives the `||`
and then makes the subsequent `.filter` call throw. -/
def dynRawParents (M : DynManifest) (id : String) : Except Unit (List String) :=
  match M.parent_map with
  | none => .error ()
  | some pm =>
    match jget pm id with
    | none => .ok []
    | some (.arr xs) => .ok xs
    | some (.nonArr true) => .error ()
    | some (.nonArr false) => .ok []

/-- The parent lookups of the graph-building loop, performed in model
order; the first throwing access aborts the whole computation. -/
def collectParents (M : DynManifest) : List ModelRef → Except Unit (JMap String (List String))
  | [] => .ok []
  | mo :: ms =>
    match dynRawParents M mo.id with
    | .error _ => .error ()
    | .ok xs =>
      match collectParents M ms with
      | .error _ => .error ()
      | .ok rest => .ok ((mo.id, xs) :: rest)

/-- The value `parents.filter` ends up working on when the entry does not
throw: the array itself, or `[]` for an absent or falsy entry. -/
def rawOfEntry : Option PMVal → List String
  | some (.arr xs) => xs
  | _ => []

/-- `calculateModelDepths` run on a raw parsed manifest.  The models are
collected, then the graph-building loop reads each model's `parent_map`
entry in order; the first throwing access aborts the computation (the table
was already cleared and nothing has been written to it at any throw site).
When every access succeeds the computation is the structural one, on the
manifest whose `parent_map` holds the recovered entry of each model. -/
def calculateModelDepthsDyn (M : DynManifest) : Except Unit (JMap String Nat) :=
  match collectParents M (modelsFrom M.nodes) with
  | .error _ => .error ()
  | .ok pm =>
    .ok (calculateModelDepths { nodes := M.nodes, child_map := [], parent_map := pm })

/-- The mutable state of `DbtManifestParser`: the stored manifest and the
published `_modelDepths` table. -/
structure ParserState where
  manifest : Option DynManifest
  modelDepths : JMap String Nat
deriving DecidableEq, Repr

/-- `refreshManifest`.  `found` is the outcome of the out-of-scope file
location and `JSON.parse` step: `none` when no manifest file is found
(early return), `some (.error ())` when reading or parsing throws (caught
before `this.manifest` is assigned), `some (.ok m)` when parsing succeeds.
A throw inside `calculateModelDepths` is caught by the same `try/catch`,
but only after the table has been cleared, so the state keeps the new
manifest and an empty table.  The returned flag tells whether the
`onManifestUpdated` event fired. -/
def refreshManifest (found : Option (Except Unit DynManifest)) (st : ParserState) :
    ParserState × Bool :=
  match found with
  | none => (st, false)
  | some (.error _) => (st, false)
  | some (.ok m) =>
    match calculateModelDepthsDyn m with
    | .error _ => ({ manifest := some m, modelDepths := [] }, false)
    | .ok t => ({ manifest := some m, modelDepths := t }, true)

/-- The `dbtDepthy.*` configuration slots read by the decoration provider;
`none` models an unset setting (`config.get` returning `undefined`). -/
structure DepthyConfig where
  mediumDepthThreshold : Option Nat
  highDepthThreshold : Option Nat
  colorLowDepth : Option String
  colorMediumDepth : Option String
  colorHighDepth : Option String
deriving DecidableEq, Repr

/-- `config.get<number>(...) || default`: `undefined` and the falsy `0`
fall back to the default. -/
def orFalsyNat (o : Option Nat) (dflt : Nat) : Nat :=
  match o with
  | some v => if v = 0 then dflt else v
  | none => dflt

/-- `config.get<string>(...) || default`: `undefined` and the falsy `""`
fall back to the default. -/
def orFalsyStr (o : Option String) (dflt : String) : String :=
  match o with
  | some s => if s = "" then dflt else s
  | none => dflt

/-- The parts of the produced `DecorationOptions` that carry information:
the rendered text and the chosen background colour. -/
structure DepthDecoration where
  contentText : String
  backgroundColor : String
deriving DecidableEq, Repr

/-- `createDepthDecoration`: increment the stored depth by one, pick the
colour by comparing the adjusted depth against the thresholds, and render
`(adjustedDepth)`. -/
def createDepthDecoration (cfg : DepthyConfig) (depth : Nat) : DepthDecoration :=
  let mediumThreshold := orFalsyNat cfg.mediumDepthThreshold 3
  let highThreshold := orFalsyNat cfg.highDepthThreshold 6
  let lowColor := orFalsyStr cfg.colorLowDepth "rgba(0, 200, 0, 0.7)"
  let mediumColor := orFalsyStr cfg.colorMediumDepth "rgba(200, 200, 0, 0.7)"
  let highColor := orFalsyStr cfg.colorHighDepth "rgba(200, 0, 0, 0.7)"
  let adjustedDepth := depth + 1
  let color :=
    if adjustedDepth ≥ highThreshold then highColor
    else if adjustedDepth ≥ mediumThreshold then mediumColor
    else lowColor
  { contentText := "(" ++ toString adjustedDepth ++ ")", backgroundColor := color }

/-- The decoration attached to one `ref('name')` occurrence by
`updateDecorations`: present exactly when `getModelDepth` finds a depth. -/
def decorationForRef (cfg : DepthyConfig) (t : JMap String Nat) (modelName : String) :
    Option DepthDecoration :=
  (getModelDepth t modelName).map (createDepthDecoration cfg)

/-- The markdown text assembled by `provideHoverForDepthIndicator` for a
model whose stored depth is `depth`. -/
def hoverDepthText (modelName : String) (depth : Nat) : String :=
  let adjustedDepth := depth + 1
  "The referenced model `" ++ modelName ++ "` has a DAG depth of "
    ++ toString adjustedDepth ++ ".\n\n"
    ++ "The longest path of models between a source and `" ++ modelName
    ++ "` is " ++ toString adjustedDepth ++ " nodes long.\n\n"
    ++ "Annotation created by extension: dbt Depthy"

/-- The hover produced for one `ref('name')` occurrence: present exactly
when `getModelDepth` finds a depth. -/
def hoverForRef (t : JMap String Nat) (modelName : String) : Option String :=
  (getModelDepth t modelName).map (hoverDepthText modelName)

/-! Auxiliary notions used to state and prove properties of the loop. -/

/-- Number of occurrences of `u` in a list of ids. -/
def countOcc (u : String) (l : List String) : Nat :=
  (l.filter (fun p => p = u)).length

/-- Number of parent occurrences of `v` not yet processed (not in the
trace `π`). -/
def unproc (M : DbtManifest) (v : String) (π : List String) : Nat :=
  ((filteredParents M v).filter (fun p => ¬ p ∈ π)).length

/-- The value given to `depths` at initialisation. -/
def initD (M : DbtManifest) (v : String) : Nat :=
  if filteredParents M v = [] then 1 else 0

/-- `max` over `d p + 1` for `p` in a parent list (`0` when empty). -/
def mpd (d : String → Nat) (ps : List String) : Nat :=
  ps.foldr (fun p a => max (d p + 1) a) 0

/-- Position of the first occurrence of `v` in `l` (`l.length` when
absent). -/
def listPos : List String → String → Nat
  | [], _ => 0
  | x :: xs, v => if x = v then 0 else listPos xs v + 1

/-- Loop invariant of the topological propagation, at queue boundaries. -/
structure KInv (M : DbtManifest) (st : KState) : Prop where
  pi_nodup : st.procd.Nodup
  pi_sub : ∀ v ∈ st.procd, v ∈ modelIds M
  q_sub : ∀ v ∈ st.q, v ∈ modelIds M
  q_nodup : st.q.Nodup
  q_pi : ∀ v ∈ st.q, v ∉ st.procd
  g_eq : ∀ v ∈ modelIds M, st.g v = (unproc M v st.procd : Int)
  mem_iff : ∀ v ∈ modelIds M, (v ∈ st.procd ∨ v ∈ st.q) ↔ unproc M v st.procd = 0
  par_before : ∀ v ∈ st.procd, ∀ p ∈ filteredParents M v,
      p ∈ st.procd ∧ listPos st.procd p < listPos st.procd v
  d_proc : ∀ v ∈ st.procd, st.d v = max (initD M v) (mpd st.d (filteredParents M v))
  d_unproc : ∀ v ∈ modelIds M, v ∉ st.procd →
      st.d v = max (initD M v)
        (mpd st.d ((filteredParents M v).filter (fun p => decide (p ∈ st.procd))))

/-- One retained dependency edge between participating nodes: `a` is a
filtered parent of `b`. -/
def parentStep (M : DbtManifest) (a b : String) : Prop :=
  a ∈ modelIds M ∧ b ∈ modelIds M ∧ a ∈ filteredParents M b

/-- `v` lies on a dependency cycle among participating nodes. -/
def OnCycle (M : DbtManifest) (v : String) : Prop :=
  Relation.TransGen (parentStep M) v v

/-- Key-list effect of one `jset`. -/
def keyAdd (ks : List String) (k : String) : List String :=
  if k ∈ ks then ks else ks ++ [k]

/-! Concrete manifests used as test inputs, witnesses and counterexamples. -/

/-- Shorthand for a participating node record. -/
def mnode (uid nm : String) (deps : List String) : DbtNode :=
  ⟨uid, deps, nm, "model", "test"⟩

/-- Scenario C of the specification: `a→[]`, `b→[]`, `c→[b]`, `d→[c]`,
`target→[a,d]`. -/
def scenarioC : DbtManifest :=
  { nodes :=
      [ ("model.test.a", mnode "model.test.a" "a" [])
      , ("model.test.b", mnode "model.test.b" "b" [])
      , ("model.test.c", mnode "model.test.c" "c" ["model.test.b"])
      , ("model.test.d", mnode "model.test.d" "d" ["model.test.c"])
      , ("model.test.target", mnode "model.test.target" "target"
          ["model.test.a", "model.test.d"]) ]
    child_map := []
    parent_map :=
      [ ("model.test.a", [])
      , ("model.test.b", [])
      , ("model.test.c", ["model.test.b"])
      , ("model.test.d", ["model.test.c"])
      , ("model.test.target", ["model.test.a", "model.test.d"]) ] }

/-- A topological rank for `scenarioC`. -/
def scenarioCRank (v : String) : Nat :=
  if v = "model.test.b" then 0
  else if v = "model.test.c" then 1
  else if v = "model.test.d" then 2
  else if v = "model.test.a" then 0
  else 3

/-- A manifest with a dangling `model.`-prefixed parent reference:
`model.ghost` is not a node, yet it passes the prefix filter, so `p` keeps
in-degree 1 forever and `c` (whose only parent is the participating `p`)
is never finalised either. -/
def phantomManifest : DbtManifest :=
  { nodes :=
      [ ("model.t.p", mnode "model.t.p" "p" ["model.ghost"])
      , ("model.t.c", mnode "model.t.c" "c" ["model.t.p"]) ]
    child_map := []
    parent_map := [ ("model.t.p", ["model.ghost"]), ("model.t.c", ["model.t.p"]) ] }

/-- A topological rank for `phantomManifest` (it is acyclic). -/
def phantomRank (v : String) : Nat :=
  if v = "model.ghost" then 0 else if v = "model.t.p" then 1 else 2

/-- A manifest in which model `model.a` has the *name* `"model.b"`, equal
to the *id* of model `model.b`: publishing `model.a` overwrites the id key
of `model.b`. -/
def shadowManifest : DbtManifest :=
  { nodes :=
      [ ("model.b", mnode "model.b" "nb" [])
      , ("model.a", mnode "model.a" "model.b" ["model.b"]) ]
    child_map := []
    parent_map := [ ("model.b", []), ("model.a", ["model.b"]) ] }

/-- A manifest with a two-node participating cycle `a2 ↔ b2` fed by the
root `r`: `b2` is on the cycle, is never dequeued, yet ends with published
depth 2, not the sentinel 0. -/
def cycleManifest : DbtManifest :=
  { nodes :=
      [ ("model.t.r", mnode "model.t.r" "r" [])
      , ("model.t.a", mnode "model.t.a" "a2" ["model.t.b"])
      , ("model.t.b", mnode "model.t.b" "b2" ["model.t.r", "model.t.a"]) ]
    child_map := []
    parent_map :=
      [ ("model.t.r", [])
      , ("model.t.a", ["model.t.b"])
      , ("model.t.b", ["model.t.r", "model.t.a"]) ] }

/-- Scenario A of the specification (`a→[]`, `b→[a]`, `c→[b]`), on which
the BFS table and the topological table disagree. -/
def scenarioA : DbtManifest :=
  { nodes :=
      [ ("model.test.a", mnode "model.test.a" "a" [])
      , ("model.test.b", mnode "model.test.b" "b" ["model.test.a"])
      , ("model.test.c", mnode "model.test.c" "c" ["model.test.b"]) ]
    child_map := []
    parent_map :=
      [ ("model.test.a", [])
      , ("model.test.b", ["model.test.a"])
      , ("model.test.c", ["model.test.b"]) ] }

/-- A parsed manifest whose `parent_map` property is absent, with one
participating node: the first parent lookup throws. -/
def noPmDynManifest : DynManifest :=
  { nodes := [ ("model.p.x", mnode "model.p.x" "x" []) ]
    parent_map := none }

/-- A well-formed parsed manifest with one root model `m`. -/
def goodDynManifest : DynManifest :=
  { nodes := [ ("model.p.m", mnode "model.p.m" "m" []) ]
    parent_map := some [ ("model.p.m", .arr []) ] }

/-- A parsed manifest with a model whose `parent_map` entry is missing
entirely (degrades to no parents). -/
def missingEntryDynManifest : DynManifest :=
  { nodes :=
      [ ("model.p.m", mnode "model.p.m" "m" [])
      , ("model.p.n", mnode "model.p.n" "n" ["model.p.m"]) ]
    parent_map := some [ ("model.p.n", .arr ["model.p.m"]) ] }

/-! Basic lemmas about the map embeddings. -/

theorem jget_jset_self {β : Type} (m : JMap String β) (k : String) (v : β) :
    jget (jset m k v) k = some v := by
  induction m with
  | nil => simp [jget, jset]
  | cons kv t ih =>
    obtain ⟨a, b⟩ := kv
    by_cases h : a = k
    · simp [jget, jset, h]
    · simp [jget, jset, h, ih]

theorem jkeys_cons {β : Type} (a : String) (b : β) (t : JMap String β) :
    jkeys ((a, b) :: t) = a :: jkeys t := rfl

theorem jget_jset_ne {β : Type} (m : JMap String β) (k k' : String) (v : β)
    (h : k' ≠ k) : jget (jset m k v) k' = jget m k' := by
  induction m with
  | nil =>
    show (if k = k' then some v else none) = none
    rw [if_neg (fun hh => h hh.symm)]
  | cons kv t ih =>
    obtain ⟨a, b⟩ := kv
    show jget (if a = k then (a, v) :: t else (a, b) :: jset t k v) k'
        = (if a = k' then some b else jget t k')
    by_cases ha : a = k
    · rw [if_pos ha]
      subst ha
      show (if a = k' then some v else jget t k') = (if a = k' then some b else jget t k')
      rw [if_neg (fun hh : a = k' => h (hh ▸ rfl)), if_neg (fun hh : a = k' => h (hh ▸ rfl))]
    · rw [if_neg ha]
      show (if a = k' then some b else jget (jset t k v) k')
          = (if a = k' then some b else jget t k')
      by_cases ha' : a = k'
      · rw [if_pos ha', if_pos ha']
      · rw [if_neg ha', if_neg ha', ih]

theorem mem_jkeys_iff_isSome {β : Type} (m : JMap String β) (k : String) :
    k ∈ jkeys m ↔ (jget m k).isSome := by
  induction m with
  | nil => simp [jkeys, jget]
  | cons kv t ih =>
    obtain ⟨a, b⟩ := kv
    rw [jkeys_cons, List.mem_cons]
    show (k = a ∨ k ∈ jkeys t) ↔ (if a = k then some b else jget t k).isSome
    by_cases h : a = k
    · subst h
      simp
    · rw [if_neg h, ← ih]
      exact or_iff_right (fun hh => h hh.symm)

theorem jkeys_jset {β : Type} (m : JMap String β) (k : String) (v : β) :
    jkeys (jset m k v) = keyAdd (jkeys m) k := by
  induction m with
  | nil => simp [jkeys, jset, keyAdd]
  | cons kv t ih =>
    obtain ⟨a, b⟩ := kv
    show jkeys (if a = k then (a, v) :: t else (a, b) :: jset t k v)
        = keyAdd (jkeys ((a, b) :: t)) k
    by_cases h : a = k
    · rw [if_pos h]
      subst h
      rw [jkeys_cons, jkeys_cons, keyAdd, if_pos (List.mem_cons_self a _)]
    · rw [if_neg h, jkeys_cons, jkeys_cons, ih, keyAdd, keyAdd]
      have hka : ¬ k = a := fun hh => h hh.symm
      by_cases hk : k ∈ jkeys t
      · rw [if_pos hk, if_pos (List.mem_cons.mpr (Or.inr hk))]
      · rw [if_neg hk, if_neg (by simp [hka, hk]), List.cons_append]

/-! Counting occurrences. -/

theorem countOcc_nil (u : String) : countOcc u [] = 0 := rfl

theorem countOcc_cons (u x : String) (l : List String) :
    countOcc u (x :: l) = (if x = u then 1 else 0) + countOcc u l := by
  by_cases h : x = u <;> simp [countOcc, h, Nat.add_comm]

theorem countOcc_append (u : String) (l₁ l₂ : List String) :
    countOcc u (l₁ ++ l₂) = countOcc u l₁ + countOcc u l₂ := by
  simp [countOcc, List.filter_append]

theorem countOcc_pos_iff (u : String) (l : List String) :
    0 < countOcc u l ↔ u ∈ l := by
  induction l with
  | nil => simp [countOcc]
  | cons x t ih =>
    rw [countOcc_cons, List.mem_cons]
    by_cases h : x = u
    · subst h
      simp
    · have hux : ¬ u = x := fun hh => h hh.symm
      simp [h, hux, ih]

theorem countOcc_eq_zero_iff (u : String) (l : List String) :
    countOcc u l = 0 ↔ u ∉ l := by
  rw [← countOcc_pos_iff]
  omega

theorem nodup_of_countOcc (l : List String) (h : ∀ v, countOcc v l ≤ 1) :
    l.Nodup := by
  induction l with
  | nil => simp
  | cons x t ih =>
    have hx := h x
    rw [countOcc_cons, if_pos rfl] at hx
    refine List.nodup_cons.mpr ⟨?_, ih fun v => ?_⟩
    · rw [← countOcc_eq_zero_iff]
      omega
    · have := h v
      rw [countOcc_cons] at this
      omega

theorem countOcc_le_one_of_nodup {l : List String} (h : l.Nodup) (v : String) :
    countOcc v l ≤ 1 := by
  induction l with
  | nil => simp [countOcc]
  | cons x t ih =>
    rw [List.nodup_cons] at h
    rw [countOcc_cons]
    by_cases hx : x = v
    · subst hx
      have hz : countOcc x t = 0 := (countOcc_eq_zero_iff x t).mpr h.1
      rw [if_pos rfl, hz]
    · rw [if_neg hx]
      simpa using ih h.2

/-! Pointwise update. -/

theorem upd_self {β : Type} (f : String → β) (k : String) (v : β) :
    upd f k v k = v := by simp [upd]

theorem upd_ne {β : Type} (f : String → β) (k x : String) (v : β) (h : x ≠ k) :
    upd f k v x = f x := by simp [upd, h]

/-! Generic characterisations of the initialisation folds: the value
written for a key depends only on the key, so the result of the fold is
pointwise determined. -/

theorem foldl_upd_keyfun {β : Type} (f : String → β) :
    ∀ (ms : List ModelRef) (g : String → β) (u : String),
      (ms.foldl (fun h mo => upd h mo.id (f mo.id)) g) u
        = if u ∈ ms.map ModelRef.id then f u else g u := by
  intro ms
  induction ms with
  | nil => intro g u; simp
  | cons mo ms ih =>
    intro g u
    rw [List.foldl_cons, ih]
    by_cases hmem : u ∈ ms.map ModelRef.id
    · simp [hmem]
    · by_cases hu : u = mo.id
      · subst hu
        simp [hmem, upd_self]
      · simp [hmem, hu, upd_ne _ _ _ _ hu]

theorem foldl_jset_keyfun {β : Type} (f : String → β) :
    ∀ (ms : List ModelRef) (g : JMap String β) (u : String),
      jget (ms.foldl (fun g mo => jset g mo.id (f mo.id)) g) u
        = if u ∈ ms.map ModelRef.id then some (f u) else jget g u := by
  intro ms
  induction ms with
  | nil => intro g u; simp
  | cons mo ms ih =>
    intro g u
    rw [List.foldl_cons, ih]
    by_cases hmem : u ∈ ms.map ModelRef.id
    · simp [hmem]
    · by_cases hu : u = mo.id
      · subst hu
        simp [hmem, jget_jset_self]
      · simp [hmem, hu, jget_jset_ne _ _ _ _ hu]

/-! Characterisation of the graph-building stage. -/

theorem parentsLookup_eq (M : DbtManifest) (u : String) :
    parentsLookup M u = if u ∈ modelIds M then filteredParents M u else [] := by
  unfold parentsLookup buildParentGraph
  rw [foldl_jset_keyfun (filteredParents M) (modelsOf M) [] u]
  by_cases h : u ∈ (modelsOf M).map ModelRef.id
  · rw [if_pos h, if_pos (show u ∈ modelIds M from h)]
    rfl
  · rw [if_neg h, if_neg (show ¬ u ∈ modelIds M from h)]
    rfl

theorem jgetD_push_fold (x : String) :
    ∀ (ps : List String) (g : JMap String (List String)) (u : String),
      (jget (ps.foldl (fun gg p => jset gg p ((jget gg p).getD [] ++ [x])) g) u).getD []
        = (jget g u).getD [] ++ (ps.filter (fun p => p = u)).map (fun _ => x) := by
  intro ps
  induction ps with
  | nil => intro g u; simp
  | cons p ps ih =>
    intro g u
    rw [List.foldl_cons, ih]
    by_cases h : p = u
    · subst h
      rw [jget_jset_self]
      simp
    · rw [jget_jset_ne _ _ _ _ (fun hh => h hh.symm)]
      simp [h]

theorem jgetD_ensure (g : JMap String (List String)) (k u : String) :
    (jget (ensureEntry g k) u).getD [] = (jget g u).getD [] := by
  unfold ensureEntry
  by_cases h : (jget g k).isSome
  · rw [if_pos h]
  · rw [if_neg h]
    by_cases hu : u = k
    · subst hu
      rw [jget_jset_self]
      cases hj : jget g u with
      | none => simp
      | some val => rw [hj] at h; simp at h
    · rw [jget_jset_ne _ _ _ _ hu]

theorem childrenOf_eq (M : DbtManifest) (u : String) :
    childrenOf M u
      = (modelsOf M).flatMap
          (fun mo => ((filteredParents M mo.id).filter (fun p => p = u)).map
            (fun _ => mo.id)) := by
  have key : ∀ (ms : List ModelRef) (g : JMap String (List String)),
      (jget (ms.foldl (fun g mo =>
          ensureEntry
            ((filteredParents M mo.id).foldl
              (fun gg p => jset gg p ((jget gg p).getD [] ++ [mo.id])) g)
            mo.id) g) u).getD []
        = (jget g u).getD []
          ++ ms.flatMap (fun mo => ((filteredParents M mo.id).filter (fun p => p = u)).map
              (fun _ => mo.id)) := by
    intro ms
    induction ms with
    | nil => intro g; simp
    | cons mo ms ih =>
      intro g
      rw [List.foldl_cons, ih, jgetD_ensure, jgetD_push_fold, List.flatMap_cons,
        List.append_assoc]
  have h := key (modelsOf M) []
  simpa [childrenOf, buildChildGraph, jget] using h

theorem mem_childrenOf (M : DbtManifest) {u v : String} :
    v ∈ childrenOf M u ↔ ∃ mo ∈ modelsOf M, mo.id = v ∧ u ∈ filteredParents M mo.id := by
  rw [childrenOf_eq]
  constructor
  · intro h
    rcases List.mem_flatMap.mp h with ⟨mo, hmo, hv⟩
    rcases List.mem_map.mp hv with ⟨p, hp, hpv⟩
    rcases List.mem_filter.mp hp with ⟨hpmem, hpu⟩
    have hpu' : p = u := by simpa using hpu
    exact ⟨mo, hmo, hpv, hpu' ▸ hpmem⟩
  · rintro ⟨mo, hmo, rfl, hu⟩
    exact List.mem_flatMap.mpr
      ⟨mo, hmo, List.mem_map.mpr ⟨u, List.mem_filter.mpr ⟨hu, by simp⟩, rfl⟩⟩

theorem countOcc_map_const (c v : String) (l : List String) :
    countOcc v (l.map (fun _ => c)) = if c = v then l.length else 0 := by
  induction l with
  | nil => by_cases h : c = v <;> simp [countOcc, h]
  | cons x t ih =>
    rw [List.map_cons, countOcc_cons, ih]
    by_cases h : c = v <;> simp [h, Nat.add_comm]

theorem countOcc_childrenOf (M : DbtManifest) (hnd : (modelIds M).Nodup) (u v : String) :
    countOcc v (childrenOf M u)
      = if v ∈ modelIds M then countOcc u (filteredParents M v) else 0 := by
  rw [childrenOf_eq]
  have key : ∀ ms : List ModelRef, (ms.map ModelRef.id).Nodup →
      countOcc v (ms.flatMap (fun mo => ((filteredParents M mo.id).filter (fun p => p = u)).map
          (fun _ => mo.id)))
        = if v ∈ ms.map ModelRef.id then countOcc u (filteredParents M v) else 0 := by
    intro ms
    induction ms with
    | nil => intro _; simp [countOcc]
    | cons mo ms ih =>
      intro hn
      rw [List.map_cons, List.nodup_cons] at hn
      rw [List.flatMap_cons, countOcc_append, countOcc_map_const, ih hn.2, List.map_cons]
      by_cases h : mo.id = v
      · subst h
        rw [if_pos rfl, if_neg hn.1, if_pos (List.mem_cons_self _ _), Nat.add_zero]
        rfl
      · rw [if_neg h]
        by_cases hv : v ∈ List.map ModelRef.id ms
        · rw [if_pos hv, if_pos (List.mem_cons.mpr (Or.inr hv)), Nat.zero_add]
        · rw [if_neg hv,
            if_neg (by
              rw [List.mem_cons]
              push_neg
              exact ⟨fun hh => h hh.symm, hv⟩),
            Nat.add_zero]
  exact key (modelsOf M) hnd

theorem childrenOf_sub (M : DbtManifest) {u v : String} (h : v ∈ childrenOf M u) :
    v ∈ modelIds M := by
  rcases (mem_childrenOf M).mp h with ⟨mo, hmo, rfl, _⟩
  exact List.mem_map.mpr ⟨mo, hmo, rfl⟩

theorem filteredParents_startsWith (M : DbtManifest) {p id : String}
    (h : p ∈ filteredParents M id) : strStartsWith p "model." = true :=
  (List.mem_filter.mp h).2

/-! Characterisation of the initial state. -/

theorem initState_d (M : DbtManifest) (v : String) :
    (initState M).d v = if v ∈ modelIds M then initD M v else 0 := by
  have hd : (initState M).d v
      = ((modelsOf M).foldl
          (fun f mo => upd f mo.id (if (parentsLookup M mo.id).length = 0 then 1 else 0))
          (fun _ => 0)) v := rfl
  rw [hd, foldl_upd_keyfun (fun id => if (parentsLookup M id).length = 0 then 1 else 0)]
  by_cases hv : v ∈ (modelsOf M).map ModelRef.id
  · rw [if_pos hv, if_pos (show v ∈ modelIds M from hv),
      parentsLookup_eq, if_pos (show v ∈ modelIds M from hv)]
    unfold initD
    by_cases hp : filteredParents M v = []
    · rw [if_pos hp, if_pos (by rw [hp]; rfl)]
    · rw [if_neg hp, if_neg (fun hl => hp (List.length_eq_zero.mp hl))]
  · rw [if_neg hv, if_neg (show ¬ v ∈ modelIds M from hv)]

theorem initState_g (M : DbtManifest) (v : String) :
    (initState M).g v
      = if v ∈ modelIds M then ((filteredParents M v).length : Int) else 0 := by
  have hg : (initState M).g v
      = ((modelsOf M).foldl
          (fun f mo => upd f mo.id ((parentsLookup M mo.id).length : Int))
          (fun _ => 0)) v := rfl
  rw [hg, foldl_upd_keyfun (fun id => ((parentsLookup M id).length : Int))]
  by_cases hv : v ∈ (modelsOf M).map ModelRef.id
  · rw [if_pos hv, if_pos (show v ∈ modelIds M from hv),
      parentsLookup_eq, if_pos (show v ∈ modelIds M from hv)]
  · rw [if_neg hv, if_neg (show ¬ v ∈ modelIds M from hv)]

theorem initState_q (M : DbtManifest) :
    (initState M).q
      = ((modelsOf M).filter
          (fun mo => decide (filteredParents M mo.id = []))).map ModelRef.id := by
  have hq : (initState M).q
      = ((modelsOf M).filter (fun mo =>
          ((modelsOf M).foldl
            (fun f mo => upd f mo.id ((parentsLookup M mo.id).length : Int))
            (fun _ => 0)) mo.id = 0)).map ModelRef.id := rfl
  rw [hq]
  congr 1
  apply List.filter_congr
  intro mo hmo
  rw [foldl_upd_keyfun (fun id => ((parentsLookup M id).length : Int)),
    if_pos (List.mem_map.mpr ⟨mo, hmo, rfl⟩),
    parentsLookup_eq,
    if_pos (show mo.id ∈ modelIds M from List.mem_map.mpr ⟨mo, hmo, rfl⟩)]
  apply decide_eq_decide.mpr
  constructor
  · intro h
    exact List.length_eq_zero.mp (by exact_mod_cast h)
  · intro h
    rw [h]
    rfl

theorem initState_procd (M : DbtManifest) : (initState M).procd = [] := rfl

theorem unproc_nil (M : DbtManifest) (v : String) :
    unproc M v [] = (filteredParents M v).length := by
  simp [unproc]

theorem kinv_init (M : DbtManifest) (hnd : (modelIds M).Nodup) :
    KInv M (initState M) := by
  refine ⟨?_, ?_, ?_, ?_, ?_, ?_, ?_, ?_, ?_, ?_⟩
  · rw [initState_procd]
    exact List.nodup_nil
  · intro v hv
    rw [initState_procd] at hv
    exact absurd hv (List.not_mem_nil v)
  · intro v hv
    rw [initState_q M] at hv
    rcases List.mem_map.mp hv with ⟨mo, hmo, rfl⟩
    exact List.mem_map.mpr ⟨mo, List.mem_of_mem_filter hmo, rfl⟩
  · rw [initState_q M]
    exact ((List.filter_sublist _).map ModelRef.id).nodup hnd
  · intro v hv
    rw [initState_procd]
    exact List.not_mem_nil v
  · intro v hv
    rw [initState_procd, initState_g, if_pos hv, unproc_nil]
  · intro v hv
    rw [initState_procd, initState_q M, unproc_nil]
    constructor
    · rintro (h | h)
      · exact absurd h (List.not_mem_nil v)
      · rcases List.mem_map.mp h with ⟨mo, hmo, rfl⟩
        rcases List.mem_filter.mp hmo with ⟨_, hpred⟩
        rw [of_decide_eq_true hpred]
        rfl
    · intro h
      rcases List.mem_map.mp hv with ⟨mo, hmo, rfl⟩
      refine Or.inr (List.mem_map.mpr ⟨mo, List.mem_filter.mpr ⟨hmo, ?_⟩, rfl⟩)
      exact decide_eq_true (List.length_eq_zero.mp h)
  · intro v hv
    rw [initState_procd] at hv
    exact absurd hv (List.not_mem_nil v)
  · intro v hv
    rw [initState_procd] at hv
    exact absurd hv (List.not_mem_nil v)
  · intro v hv _
    rw [initState_procd, initState_d, if_pos hv]
    have hfil : (filteredParents M v).filter (fun p => decide (p ∈ ([] : List String))) = [] := by
      simp
    rw [hfil]
    show initD M v = max (initD M v) (mpd (initState M).d [])
    rw [show mpd (initState M).d [] = 0 from rfl, Nat.max_zero]

/-! Effect of one child-loop iteration and of the whole child loop. -/

theorem stepChild_d (du : Nat) (s : KState) (c v : String) :
    (stepChild du s c).d v = upd s.d c (max (s.d c) (du + 1)) v := rfl

theorem stepChild_g (du : Nat) (s : KState) (c v : String) :
    (stepChild du s c).g v = upd s.g c (s.g c - 1) v := rfl

theorem stepChild_q (du : Nat) (s : KState) (c : String) :
    (stepChild du s c).q = if s.g c - 1 = 0 then s.q ++ [c] else s.q := rfl

theorem stepChild_procd (du : Nat) (s : KState) (c : String) :
    (stepChild du s c).procd = s.procd := rfl

theorem foldSC_d (du : Nat) :
    ∀ (cs : List String) (s : KState) (v : String),
      ((cs.foldl (stepChild du) s).d) v
        = if v ∈ cs then max (s.d v) (du + 1) else s.d v := by
  intro cs
  induction cs with
  | nil => intro s v; simp
  | cons c cs ih =>
    intro s v
    rw [List.foldl_cons, ih]
    by_cases hv : v ∈ cs
    · rw [if_pos hv, if_pos (List.mem_cons.mpr (Or.inr hv)), stepChild_d]
      by_cases hvc : v = c
      · subst hvc
        rw [upd_self]
        omega
      · rw [upd_ne _ _ _ _ hvc]
    · rw [if_neg hv, stepChild_d]
      by_cases hvc : v = c
      · subst hvc
        rw [if_pos (List.mem_cons_self _ _), upd_self]
      · rw [upd_ne _ _ _ _ hvc,
          if_neg (by rw [List.mem_cons]; push_neg; exact ⟨hvc, hv⟩)]

theorem foldSC_g (du : Nat) :
    ∀ (cs : List String) (s : KState) (v : String),
      ((cs.foldl (stepChild du) s).g) v = s.g v - (countOcc v cs : Int) := by
  intro cs
  induction cs with
  | nil => intro s v; simp [countOcc_nil]
  | cons c cs ih =>
    intro s v
    rw [List.foldl_cons, ih, stepChild_g, countOcc_cons]
    by_cases hvc : v = c
    · subst hvc
      rw [upd_self, if_pos rfl]
      push_cast
      omega
    · rw [upd_ne _ _ _ _ hvc, if_neg (fun hh => hvc hh.symm)]
      push_cast
      omega

theorem foldSC_procd (du : Nat) :
    ∀ (cs : List String) (s : KState),
      (cs.foldl (stepChild du) s).procd = s.procd := by
  intro cs
  induction cs with
  | nil => intro s; rfl
  | cons c cs ih =>
    intro s
    rw [List.foldl_cons, ih, stepChild_procd]

theorem foldSC_q (du : Nat) :
    ∀ (cs : List String) (s : KState) (v : String),
      countOcc v ((cs.foldl (stepChild du) s).q)
        = countOcc v s.q
          + (if 1 ≤ s.g v ∧ s.g v ≤ (countOcc v cs : Int) then 1 else 0) := by
  intro cs
  induction cs with
  | nil =>
    intro s v
    rw [List.foldl_nil, countOcc_nil, if_neg (by push_cast; omega), Nat.add_zero]
  | cons c cs ih =>
    intro s v
    rw [List.foldl_cons, ih, stepChild_q, stepChild_g, countOcc_cons]
    by_cases hvc : v = c
    · subst hvc
      rw [upd_self, if_pos rfl]
      by_cases hpush : s.g v - 1 = 0
      · rw [if_pos hpush, countOcc_append, countOcc_cons, countOcc_nil, if_pos rfl]
        push_cast
        split_ifs <;> omega
      · rw [if_neg hpush]
        push_cast
        split_ifs <;> omega
    · have hcv : ¬ c = v := fun hh => hvc hh.symm
      rw [upd_ne _ _ _ _ hvc, if_neg hcv]
      by_cases hpush : s.g c - 1 = 0
      · rw [if_pos hpush, countOcc_append, countOcc_cons, countOcc_nil, if_neg hcv]
        push_cast
        split_ifs <;> omega
      · rw [if_neg hpush]
        push_cast
        split_ifs <;> omega

/-! Lemmas about `mpd`. -/

theorem mpd_nil (d : String → Nat) : mpd d [] = 0 := rfl

theorem mpd_cons (d : String → Nat) (p : String) (ps : List String) :
    mpd d (p :: ps) = max (d p + 1) (mpd d ps) := rfl

theorem mpd_congr {d1 d2 : String → Nat} :
    ∀ {ps : List String}, (∀ p ∈ ps, d1 p = d2 p) → mpd d1 ps = mpd d2 ps := by
  intro ps
  induction ps with
  | nil => intro _; rfl
  | cons p ps ih =>
    intro h
    rw [mpd_cons, mpd_cons, h p (List.mem_cons_self _ _),
      ih (fun x hx => h x (List.mem_cons.mpr (Or.inr hx)))]

theorem mpd_eq_max_add_one (d : String → Nat) :
    ∀ (ps : List String), ps ≠ [] → mpd d ps = (ps.map d).foldr max 0 + 1 := by
  intro ps
  induction ps with
  | nil => intro h; cases h rfl
  | cons p ps ih =>
    intro _
    rw [mpd_cons, List.map_cons, List.foldr_cons]
    by_cases hps : ps = []
    · subst hps
      rw [mpd_nil]
      simp only [List.map_nil, List.foldr_nil]
      omega
    · rw [ih hps]
      omega

theorem mpd_filter_mem_append (d : String → Nat) (π : List String) (u : String)
    (hu : u ∉ π) :
    ∀ ps : List String,
      mpd d (ps.filter (fun p => decide (p ∈ π ++ [u])))
        = if u ∈ ps
          then max (mpd d (ps.filter (fun p => decide (p ∈ π)))) (d u + 1)
          else mpd d (ps.filter (fun p => decide (p ∈ π))) := by
  intro ps
  induction ps with
  | nil => simp [mpd]
  | cons p ps ih =>
    rw [List.filter_cons, List.filter_cons]
    by_cases hpu : p = u
    · subst hpu
      have h1 : decide (p ∈ π ++ [p]) = true := by simp
      have h2 : ¬ decide (p ∈ π) = true := by simp [hu]
      rw [if_pos h1, if_neg h2, mpd_cons, ih, if_pos (List.mem_cons_self p ps)]
      by_cases hmem : p ∈ ps
      · rw [if_pos hmem]
        omega
      · rw [if_neg hmem]
        omega
    · have hup : ¬ u = p := fun hh => hpu hh.symm
      by_cases hpπ : p ∈ π
      · have h1 : decide (p ∈ π ++ [u]) = true := by simp [hpπ]
        have h2 : decide (p ∈ π) = true := by simp [hpπ]
        rw [if_pos h1, if_pos h2, mpd_cons, ih, mpd_cons]
        by_cases hmem : u ∈ ps
        · rw [if_pos hmem, if_pos (List.mem_cons.mpr (Or.inr hmem))]
          omega
        · rw [if_neg hmem,
            if_neg (show ¬ u ∈ p :: ps by
              rw [List.mem_cons]; push_neg; exact ⟨hup, hmem⟩)]
      · have h1 : ¬ decide (p ∈ π ++ [u]) = true := by simp [hpπ, hpu]
        have h2 : ¬ decide (p ∈ π) = true := by simp [hpπ]
        rw [if_neg h1, if_neg h2, ih]
        by_cases hmem : u ∈ ps
        · rw [if_pos hmem, if_pos (List.mem_cons.mpr (Or.inr hmem))]
        · rw [if_neg hmem,
            if_neg (show ¬ u ∈ p :: ps by
              rw [List.mem_cons]; push_neg; exact ⟨hup, hmem⟩)]

/-! Lemmas about `listPos`. -/

theorem listPos_append_of_mem {v : String} :
    ∀ {l : List String} (l₂ : List String), v ∈ l → listPos (l ++ l₂) v = listPos l v := by
  intro l
  induction l with
  | nil => intro l₂ h; exact absurd h (List.not_mem_nil v)
  | cons x xs ih =>
    intro l₂ h
    show (if x = v then 0 else listPos (xs ++ l₂) v + 1)
        = (if x = v then 0 else listPos xs v + 1)
    by_cases hx : x = v
    · rw [if_pos hx, if_pos hx]
    · rw [if_neg hx, if_neg hx,
        ih l₂ ((List.mem_cons.mp h).resolve_left (fun hh => hx hh.symm))]

theorem listPos_append_self {u : String} :
    ∀ {l : List String}, u ∉ l → listPos (l ++ [u]) u = l.length := by
  intro l
  induction l with
  | nil => intro _; simp [listPos]
  | cons x xs ih =>
    intro h
    show (if x = u then 0 else listPos (xs ++ [u]) u + 1) = xs.length + 1
    rw [if_neg (show ¬ x = u from
        fun hh => h (by rw [← hh]; exact List.mem_cons_self x xs)),
      ih (fun hh => h (List.mem_cons.mpr (Or.inr hh)))]

theorem listPos_lt_length {v : String} :
    ∀ {l : List String}, v ∈ l → listPos l v < l.length := by
  intro l
  induction l with
  | nil => intro h; exact absurd h (List.not_mem_nil v)
  | cons x xs ih =>
    intro h
    show (if x = v then 0 else listPos xs v + 1) < xs.length + 1
    by_cases hx : x = v
    · rw [if_pos hx]
      omega
    · rw [if_neg hx]
      have := ih ((List.mem_cons.mp h).resolve_left (fun hh => hx hh.symm))
      omega

/-! Lemmas about `unproc`. -/

theorem filter_split_count (π : List String) (u : String) (hu : u ∉ π) :
    ∀ l : List String,
      (l.filter (fun p => decide (¬ p ∈ π ++ [u]))).length + countOcc u l
        = (l.filter (fun p => decide (¬ p ∈ π))).length := by
  intro l
  induction l with
  | nil => simp [countOcc]
  | cons p l ih =>
    rw [List.filter_cons, List.filter_cons, countOcc_cons]
    by_cases hpu : p = u
    · subst hpu
      have h1 : ¬ decide (p ∉ π ++ [p]) = true := by simp
      have h2 : decide (p ∉ π) = true := by simp [hu]
      rw [if_neg h1, if_pos h2, if_pos rfl, List.length_cons]
      omega
    · by_cases hpπ : p ∈ π
      · have h1 : ¬ decide (p ∉ π ++ [u]) = true := by simp [hpπ]
        have h2 : ¬ decide (p ∉ π) = true := by simp [hpπ]
        rw [if_neg h1, if_neg h2, if_neg hpu]
        omega
      · have h1 : decide (p ∉ π ++ [u]) = true := by simp [hpπ, hpu]
        have h2 : decide (p ∉ π) = true := by simp [hpπ]
        rw [if_pos h1, if_pos h2, if_neg hpu, List.length_cons, List.length_cons]
        omega

theorem unproc_append (M : DbtManifest) (v u : String) (π : List String) (hu : u ∉ π) :
    unproc M v (π ++ [u]) + countOcc u (filteredParents M v) = unproc M v π :=
  filter_split_count π u hu (filteredParents M v)

theorem unproc_zero_iff (M : DbtManifest) (v : String) (π : List String) :
    unproc M v π = 0 ↔ ∀ p ∈ filteredParents M v, p ∈ π := by
  unfold unproc
  rw [List.length_eq_zero, List.filter_eq_nil_iff]
  simp

theorem filter_length_mono {p q : String → Bool}
    (h : ∀ a, p a = true → q a = true) :
    ∀ l : List String, (l.filter p).length ≤ (l.filter q).length := by
  intro l
  induction l with
  | nil => simp
  | cons x xs ih =>
    rw [List.filter_cons, List.filter_cons]
    by_cases hx : p x = true
    · rw [if_pos hx, if_pos (h x hx), List.length_cons, List.length_cons]
      omega
    · rw [if_neg hx]
      by_cases hq : q x = true
      · rw [if_pos hq, List.length_cons]
        omega
      · rw [if_neg hq]
        exact ih

theorem unproc_mono (M : DbtManifest) (v : String) {π π' : List String}
    (h : ∀ x ∈ π, x ∈ π') : unproc M v π' ≤ unproc M v π := by
  unfold unproc
  apply filter_length_mono
  intro a ha
  rcases of_decide_eq_true ha with hnot
  exact decide_eq_true (fun hmem => hnot (h a hmem))

theorem unproc_pos (M : DbtManifest) {v p : String} {π : List String}
    (hp : p ∈ filteredParents M v) (hn : p ∉ π) : 0 < unproc M v π := by
  unfold unproc
  apply List.length_pos.mpr
  intro hnil
  have : p ∈ (filteredParents M v).filter (fun p => decide (¬ p ∈ π)) :=
    List.mem_filter.mpr ⟨hp, decide_eq_true hn⟩
  rw [hnil] at this
  exact absurd this (List.not_mem_nil p)

/-! Preservation of the invariant by one loop iteration. -/

theorem kinv_preserve (M : DbtManifest) (hnd : (modelIds M).Nodup) {st : KState}
    (h : KInv M st) {u : String} {rest : List String} (hq : st.q = u :: rest) :
    KInv M (runNode (childrenOf M) { st with q := rest } u) := by
  have huq : u ∈ st.q := by rw [hq]; exact List.mem_cons_self u rest
  have huV : u ∈ modelIds M := h.q_sub u huq
  have huπ : u ∉ st.procd := h.q_pi u huq
  have huz : unproc M u st.procd = 0 := (h.mem_iff u huV).mp (Or.inr huq)
  have hPfπ : ∀ p ∈ filteredParents M u, p ∈ st.procd :=
    (unproc_zero_iff M u st.procd).mp huz
  have hrest : rest.Nodup ∧ u ∉ rest := by
    have hn := h.q_nodup
    rw [hq, List.nodup_cons] at hn
    exact ⟨hn.2, hn.1⟩
  have hucs : u ∉ childrenOf M u := by
    intro hc
    rcases (mem_childrenOf M).mp hc with ⟨mo, _, hid, hu⟩
    rw [hid] at hu
    exact huπ (hPfπ u hu)
  have hπcs : ∀ v ∈ st.procd, v ∉ childrenOf M u := by
    intro v hv hc
    rcases (mem_childrenOf M).mp hc with ⟨mo, _, hid, hu⟩
    rw [hid] at hu
    exact huπ ((h.par_before v hv u hu).1)
  have hgu : st.g u = 0 := by
    rw [h.g_eq u huV, huz]
    rfl
  have hdu_eq : st.d u = max (initD M u) (mpd st.d (filteredParents M u)) := by
    have hfil : (filteredParents M u).filter (fun p => decide (p ∈ st.procd))
        = filteredParents M u := by
      apply List.filter_eq_self.mpr
      intro p hp
      exact decide_eq_true (hPfπ p hp)
    have := h.d_unproc u huV huπ
    rw [hfil] at this
    exact this
  -- projections of the next state
  set st' := runNode (childrenOf M) { st with q := rest } u with hst'
  have hdproj : st'.d
      = ((childrenOf M u).foldl (stepChild (st.d u)) { st with q := rest }).d := rfl
  have hgproj : st'.g
      = ((childrenOf M u).foldl (stepChild (st.d u)) { st with q := rest }).g := rfl
  have hqproj : st'.q
      = ((childrenOf M u).foldl (stepChild (st.d u)) { st with q := rest }).q := rfl
  have hpproj : st'.procd
      = ((childrenOf M u).foldl (stepChild (st.d u)) { st with q := rest }).procd
        ++ [u] := rfl
  have hprocd' : st'.procd = st.procd ++ [u] := by
    rw [hpproj, foldSC_procd]
  have hmem_pi' : ∀ v, v ∈ st'.procd ↔ (v ∈ st.procd ∨ v = u) := by
    intro v
    rw [hprocd']
    simp
  have hd' : ∀ v, st'.d v
      = if v ∈ childrenOf M u then max (st.d v) (st.d u + 1) else st.d v := by
    intro v
    rw [hdproj, foldSC_d]
  have hg' : ∀ v, st'.g v = st.g v - (countOcc v (childrenOf M u) : Int) := by
    intro v
    rw [hgproj, foldSC_g]
  have hqc : ∀ v, countOcc v st'.q
      = countOcc v rest
        + (if 1 ≤ st.g v ∧ st.g v ≤ (countOcc v (childrenOf M u) : Int)
           then 1 else 0) := by
    intro v
    rw [hqproj, foldSC_q]
  have hmemq : ∀ v, v ∈ st'.q
      ↔ (v ∈ rest
          ∨ (1 ≤ st.g v ∧ st.g v ≤ (countOcc v (childrenOf M u) : Int))) := by
    intro v
    rw [← countOcc_pos_iff, hqc]
    constructor
    · intro h0
      by_cases hr : v ∈ rest
      · exact Or.inl hr
      · right
        have hz : countOcc v rest = 0 := (countOcc_eq_zero_iff v rest).mpr hr
        rw [hz] at h0
        by_cases hcond : 1 ≤ st.g v ∧ st.g v ≤ (countOcc v (childrenOf M u) : Int)
        · exact hcond
        · rw [if_neg hcond] at h0
          omega
    · rintro (hr | hc)
      · have := (countOcc_pos_iff v rest).mpr hr
        omega
      · rw [if_pos hc]
        omega
  have hpush_mid : ∀ v, (1 ≤ st.g v ∧ st.g v ≤ (countOcc v (childrenOf M u) : Int))
      → v ∈ modelIds M := by
    intro v hc
    by_contra hnv
    rw [countOcc_childrenOf M hnd u v, if_neg hnv] at hc
    have h1 := hc.1
    have h2 := hc.2
    push_cast at h2
    omega
  have hpush_unproc : ∀ v ∈ modelIds M,
      (1 ≤ st.g v ∧ st.g v ≤ (countOcc v (childrenOf M u) : Int))
      → 1 ≤ unproc M v st.procd
        ∧ unproc M v st.procd ≤ countOcc u (filteredParents M v) := by
    intro v hv hc
    rw [h.g_eq v hv, countOcc_childrenOf M hnd u v, if_pos hv] at hc
    exact ⟨by exact_mod_cast hc.1, by exact_mod_cast hc.2⟩
  have hunp : ∀ v, unproc M v (st.procd ++ [u]) + countOcc u (filteredParents M v)
      = unproc M v st.procd := fun v => unproc_append M v u st.procd huπ
  refine ⟨?_, ?_, ?_, ?_, ?_, ?_, ?_, ?_, ?_, ?_⟩
  · -- pi_nodup
    rw [hprocd', List.nodup_append]
    refine ⟨h.pi_nodup, List.nodup_singleton u, ?_⟩
    intro a ha hb
    rw [List.mem_singleton] at hb
    exact huπ (hb ▸ ha)
  · -- pi_sub
    intro v hv
    rcases (hmem_pi' v).mp hv with hv | hv
    · exact h.pi_sub v hv
    · exact hv ▸ huV
  · -- q_sub
    intro v hv
    rcases (hmemq v).mp hv with hv | hv
    · exact h.q_sub v (by rw [hq]; exact List.mem_cons.mpr (Or.inr hv))
    · exact hpush_mid v hv
  · -- q_nodup
    apply nodup_of_countOcc
    intro v
    rw [hqc v]
    have hc1 : countOcc v rest ≤ 1 := countOcc_le_one_of_nodup hrest.1 v
    by_cases hcond : 1 ≤ st.g v ∧ st.g v ≤ (countOcc v (childrenOf M u) : Int)
    · rw [if_pos hcond]
      have hvr : v ∉ rest := by
        intro hvr
        have hvq : v ∈ st.q := by rw [hq]; exact List.mem_cons.mpr (Or.inr hvr)
        have hvV : v ∈ modelIds M := h.q_sub v hvq
        have : unproc M v st.procd = 0 := (h.mem_iff v hvV).mp (Or.inr hvq)
        have := hpush_unproc v hvV hcond
        omega
      have : countOcc v rest = 0 := (countOcc_eq_zero_iff v rest).mpr hvr
      omega
    · rw [if_neg hcond]
      omega
  · -- q_pi
    intro v hv
    rw [hmem_pi' v]
    push_neg
    rcases (hmemq v).mp hv with hv | hv
    · constructor
      · exact h.q_pi v (by rw [hq]; exact List.mem_cons.mpr (Or.inr hv))
      · intro hvu
        exact hrest.2 (hvu ▸ hv)
    · have hvV := hpush_mid v hv
      have hup := hpush_unproc v hvV hv
      constructor
      · intro hvπ
        have : unproc M v st.procd = 0 := (h.mem_iff v hvV).mp (Or.inl hvπ)
        omega
      · intro hvu
        subst hvu
        omega
  · -- g_eq
    intro v hv
    rw [hg' v, hprocd', h.g_eq v hv, countOcc_childrenOf M hnd u v, if_pos hv]
    have := hunp v
    omega
  · -- mem_iff
    intro v hv
    rw [hmem_pi' v, hmemq v, hprocd']
    have hk := hunp v
    constructor
    · rintro ((hvπ | hvu) | (hvr | hvc))
      · have : unproc M v st.procd = 0 := (h.mem_iff v hv).mp (Or.inl hvπ)
        omega
      · subst hvu
        omega
      · have : unproc M v st.procd = 0 :=
          (h.mem_iff v hv).mp (Or.inr (by rw [hq]; exact List.mem_cons.mpr (Or.inr hvr)))
        omega
      · have := hpush_unproc v hv hvc
        omega
    · intro hz
      by_cases hA : unproc M v st.procd = 0
      · rcases (h.mem_iff v hv).mpr hA with hvπ | hvq
        · exact Or.inl (Or.inl hvπ)
        · rw [hq, List.mem_cons] at hvq
          rcases hvq with hvu | hvr
          · exact Or.inl (Or.inr hvu)
          · exact Or.inr (Or.inl hvr)
      · right
        right
        rw [h.g_eq v hv, countOcc_childrenOf M hnd u v, if_pos hv]
        constructor
        · exact_mod_cast Nat.one_le_iff_ne_zero.mpr hA
        · exact_mod_cast by omega
  · -- par_before
    intro v hv p hp
    rcases (hmem_pi' v).mp hv with hvπ | hvu
    · have hold := h.par_before v hvπ p hp
      refine ⟨(hmem_pi' p).mpr (Or.inl hold.1), ?_⟩
      rw [hprocd', listPos_append_of_mem [u] hold.1, listPos_append_of_mem [u] hvπ]
      exact hold.2
    · rw [hvu] at hp
      rw [hvu]
      have hpπ : p ∈ st.procd := hPfπ p hp
      refine ⟨(hmem_pi' p).mpr (Or.inl hpπ), ?_⟩
      rw [hprocd', listPos_append_of_mem [u] hpπ, listPos_append_self huπ]
      exact listPos_lt_length hpπ
  · -- d_proc
    intro v hv
    rcases (hmem_pi' v).mp hv with hvπ | hvu
    · have hvcs := hπcs v hvπ
      rw [hd' v, if_neg hvcs, h.d_proc v hvπ]
      congr 1
      apply mpd_congr
      intro p hp
      have hpπ := (h.par_before v hvπ p hp).1
      rw [hd' p, if_neg (hπcs p hpπ)]
    · rw [hvu, hd' u, if_neg hucs, hdu_eq]
      congr 1
      apply mpd_congr
      intro p hp
      rw [hd' p, if_neg (hπcs p (hPfπ p hp))]
  · -- d_unproc
    intro v hv hvπ'
    rw [hmem_pi' v] at hvπ'
    push_neg at hvπ'
    obtain ⟨hvπ, hvu⟩ := hvπ'
    have hmpd_eq : mpd st'.d ((filteredParents M v).filter
        (fun p => decide (p ∈ st'.procd)))
        = mpd st.d ((filteredParents M v).filter
            (fun p => decide (p ∈ st'.procd))) := by
      apply mpd_congr
      intro p hp
      have hpmem := (List.mem_filter.mp hp).2
      have hpπ' : p ∈ st'.procd := of_decide_eq_true hpmem
      rcases (hmem_pi' p).mp hpπ' with hpπ | hpu
      · rw [hd' p, if_neg (hπcs p hpπ)]
      · rw [hpu, hd' u, if_neg hucs]
    rw [hmpd_eq, hprocd', mpd_filter_mem_append st.d st.procd u huπ (filteredParents M v)]
    have hold := h.d_unproc v hv hvπ
    by_cases hucase : u ∈ filteredParents M v
    · have hvcs : v ∈ childrenOf M u := by
        rcases List.mem_map.mp hv with ⟨mo, hmo, hid⟩
        exact (mem_childrenOf M).mpr ⟨mo, hmo, hid, by rw [hid]; exact hucase⟩
      rw [if_pos hucase, hd' v, if_pos hvcs, hold]
      omega
    · have hvcs : v ∉ childrenOf M u := by
        intro hc
        rcases (mem_childrenOf M).mp hc with ⟨mo, _, hid, hu2⟩
        rw [hid] at hu2
        exact hucase hu2
      rw [if_neg hucase, hd' v, if_neg hvcs, hold]

/-! The invariant along the whole run; termination and fuel sufficiency. -/

theorem runNode_procd (ch : String → List String) (st : KState) (u : String) :
    (runNode ch st u).procd = st.procd ++ [u] := by
  have hp : (runNode ch st u).procd
      = ((ch u).foldl (stepChild (st.d u)) st).procd ++ [u] := rfl
  rw [hp, foldSC_procd]

theorem nodup_length_le (l V : List String) (hn : l.Nodup) (hs : ∀ x ∈ l, x ∈ V) :
    l.length ≤ V.length := by
  have h1 : l.toFinset.card = l.length := List.toFinset_card_of_nodup hn
  have h2 : l.toFinset ⊆ V.toFinset := by
    intro x hx
    simp only [List.mem_toFinset] at hx ⊢
    exact hs x hx
  calc l.length = l.toFinset.card := h1.symm
    _ ≤ V.toFinset.card := Finset.card_le_card h2
    _ ≤ V.length := List.toFinset_card_le V

theorem kinv_run (M : DbtManifest) (hnd : (modelIds M).Nodup) :
    ∀ (n : Nat) (st : KState), KInv M st → KInv M (kahnRun (childrenOf M) n st) := by
  intro n
  induction n with
  | zero => intro st h; exact h
  | succ n ih =>
    intro st h
    rw [kahnRun]
    cases hq : st.q with
    | nil => exact h
    | cons u rest => exact ih _ (kinv_preserve M hnd h hq)

theorem kahnRun_empty (ch : String → List String) (n : Nat) (st : KState)
    (h : st.q = []) : kahnRun ch n st = st := by
  cases n with
  | zero => rfl
  | succ n =>
    rw [kahnRun, h]

theorem kahnRun_add (ch : String → List String) :
    ∀ (n : Nat) (st : KState), (kahnRun ch n st).q = []
      → ∀ k, kahnRun ch (n + k) st = kahnRun ch n st := by
  intro n
  induction n with
  | zero =>
    intro st h k
    rw [Nat.zero_add]
    exact kahnRun_empty ch k st h
  | succ n ih =>
    intro st h k
    cases hq : st.q with
    | nil =>
      rw [kahnRun_empty ch (n + 1 + k) st hq, kahnRun_empty ch (n + 1) st hq]
    | cons u rest =>
      have hstep : kahnRun ch (n + 1) st
          = kahnRun ch n (runNode ch { st with q := rest } u) := by
        rw [kahnRun, hq]
      have hstep2 : kahnRun ch (n + 1 + k) st
          = kahnRun ch (n + k) (runNode ch { st with q := rest } u) := by
        rw [show n + 1 + k = (n + k) + 1 by omega, kahnRun, hq]
      rw [hstep2, hstep]
      apply ih
      rw [← hstep]
      exact h

theorem kahnRun_drains (M : DbtManifest) (hnd : (modelIds M).Nodup) :
    ∀ (n : Nat) (st : KState), KInv M st
      → (modelIds M).length + 1 - st.procd.length ≤ n
      → (kahnRun (childrenOf M) n st).q = [] := by
  intro n
  induction n with
  | zero =>
    intro st h hn
    have hle : st.procd.length ≤ (modelIds M).length :=
      nodup_length_le _ _ h.pi_nodup h.pi_sub
    omega
  | succ n ih =>
    intro st h hn
    rw [kahnRun]
    cases hq : st.q with
    | nil => exact hq
    | cons u rest =>
      apply ih _ (kinv_preserve M hnd h hq)
      rw [runNode_procd, List.length_append]
      simp only [List.length_singleton]
      omega

theorem modelIds_length (M : DbtManifest) :
    (modelIds M).length = (modelsOf M).length := List.length_map _ _

theorem kahnState_q_empty (M : DbtManifest) (hnd : (modelIds M).Nodup) :
    (kahnState M).q = [] := by
  apply kahnRun_drains M hnd
  · exact kinv_init M hnd
  · rw [initState_procd, modelIds_length]
    omega

theorem kinv_kahnState (M : DbtManifest) (hnd : (modelIds M).Nodup) :
    KInv M (kahnState M) :=
  kinv_run M hnd _ _ (kinv_init M hnd)

theorem kahnRun_fuel_spec (M : DbtManifest) (hnd : (modelIds M).Nodup) (k : Nat) :
    kahnRun (childrenOf M) ((modelsOf M).length + 1 + k) (initState M) = kahnState M :=
  kahnRun_add (childrenOf M) _ _ (kahnState_q_empty M hnd) k

/-! Completeness on acyclic inputs, and the fate of cycle nodes. -/

theorem kahn_complete (M : DbtManifest) (hnd : (modelIds M).Nodup)
    (hclosed : ∀ mo ∈ modelsOf M, ∀ p ∈ filteredParents M mo.id, p ∈ modelIds M)
    (rank : String → Nat)
    (hrank : ∀ mo ∈ modelsOf M, ∀ p ∈ filteredParents M mo.id, rank p < rank mo.id) :
    ∀ v ∈ modelIds M, v ∈ (kahnState M).procd := by
  have hclosed' : ∀ v ∈ modelIds M, ∀ p ∈ filteredParents M v, p ∈ modelIds M := by
    intro v hv
    rcases List.mem_map.mp hv with ⟨mo, hmo, hid⟩
    rw [← hid]
    exact hclosed mo hmo
  have hrank' : ∀ v ∈ modelIds M, ∀ p ∈ filteredParents M v, rank p < rank v := by
    intro v hv
    rcases List.mem_map.mp hv with ⟨mo, hmo, hid⟩
    rw [← hid]
    exact hrank mo hmo
  have hinv := kinv_kahnState M hnd
  have hqe := kahnState_q_empty M hnd
  have main : ∀ (n : Nat) (v : String), v ∈ modelIds M → rank v < n
      → v ∈ (kahnState M).procd := by
    intro n
    induction n with
    | zero => intro v _ hr; omega
    | succ n ih =>
      intro v hv hr
      have hall : ∀ p ∈ filteredParents M v, p ∈ (kahnState M).procd := by
        intro p hp
        exact ih p (hclosed' v hv p hp)
          (by have := hrank' v hv p hp; omega)
      have hz : unproc M v (kahnState M).procd = 0 :=
        (unproc_zero_iff M v _).mpr hall
      rcases (hinv.mem_iff v hv).mpr hz with hπ | hqmem
      · exact hπ
      · rw [hqe] at hqmem
        exact absurd hqmem (List.not_mem_nil v)
  intro v hv
  exact main (rank v + 1) v hv (by omega)

theorem transGen_listPos (M : DbtManifest) {st : KState} (h : KInv M st)
    {a b : String} (hab : Relation.TransGen (parentStep M) a b) (hb : b ∈ st.procd) :
    a ∈ st.procd ∧ listPos st.procd a < listPos st.procd b := by
  induction hab with
  | single hstep =>
    exact h.par_before _ hb _ hstep.2.2
  | tail hrest hstep ih =>
    have hc := h.par_before _ hb _ hstep.2.2
    have hihc := ih hc.1
    exact ⟨hihc.1, Nat.lt_trans hihc.2 hc.2⟩

theorem onCycle_not_processed (M : DbtManifest) {st : KState} (h : KInv M st)
    {v : String} (hv : OnCycle M v) : v ∉ st.procd := by
  intro hmem
  have := transGen_listPos M h hv hmem
  omega

theorem onCycle_mem_modelIds (M : DbtManifest) {v : String} (hv : OnCycle M v) :
    v ∈ modelIds M := by
  cases hv with
  | single hstep => exact hstep.2.1
  | tail _ hstep => exact hstep.2.1

theorem onCycle_parent_onCycle (M : DbtManifest) {v : String} (hv : OnCycle M v) :
    ∃ w, w ∈ filteredParents M v ∧ OnCycle M w := by
  cases hv with
  | single hstep =>
    exact ⟨v, hstep.2.2, Relation.TransGen.single hstep⟩
  | tail hrest hstep =>
    rename_i c
    exact ⟨c, hstep.2.2, Relation.TransGen.trans (Relation.TransGen.single hstep) hrest⟩

theorem onCycle_g_ne_zero (M : DbtManifest) (hnd : (modelIds M).Nodup)
    {v : String} (hv : OnCycle M v) : (kahnState M).g v ≠ 0 := by
  have hinv := kinv_kahnState M hnd
  have hvV := onCycle_mem_modelIds M hv
  rcases onCycle_parent_onCycle M hv with ⟨w, hwp, hwc⟩
  have hwπ : w ∉ (kahnState M).procd := onCycle_not_processed M hinv hwc
  have hpos : 0 < unproc M v (kahnState M).procd := unproc_pos M hwp hwπ
  rw [hinv.g_eq v hvV]
  omega

/-! Characterisation of the published table. -/

theorem jget_publish_fold {β : Type} (f : ModelRef → β) :
    ∀ (ms : List ModelRef) (t : JMap String β) (k : String),
      jget (ms.foldl (fun t mo => jset (jset t mo.name (f mo)) mo.id (f mo)) t) k
        = (((ms.reverse).find? (fun mo => k == mo.name || k == mo.id)).map f).or
            (jget t k) := by
  intro ms
  induction ms with
  | nil => intro t k; simp
  | cons mo ms ih =>
    intro t k
    rw [List.foldl_cons, ih, List.reverse_cons, List.find?_append]
    have hmapor : ∀ (a b : Option ModelRef),
        (a.or b).map f = (a.map f).or (b.map f) := by
      intro a b
      cases a <;> rfl
    rw [hmapor, Option.or_assoc]
    congr 1
    by_cases hid : k = mo.id
    · rw [hid, jget_jset_self,
        show List.find? (fun m2 => mo.id == m2.name || mo.id == m2.id) [mo] = some mo
          from by simp [List.find?]]
      rfl
    · rw [jget_jset_ne _ _ _ _ hid]
      by_cases hnm : k = mo.name
      · rw [hnm, jget_jset_self,
          show List.find? (fun m2 => mo.name == m2.name || mo.name == m2.id) [mo]
              = some mo from by simp [List.find?]]
        rfl
      · rw [jget_jset_ne _ _ _ _ hnm,
          show List.find? (fun m2 => k == m2.name || k == m2.id) [mo] = none from by
            simp [List.find?, show (k == mo.name) = false from by simp [hnm],
              show (k == mo.id) = false from by simp [hid]]]
        rfl

theorem calculateModelDepths_get (M : DbtManifest) (k : String) :
    jget (calculateModelDepths M) k
      = ((modelsOf M).reverse.find? (fun mo => k == mo.name || k == mo.id)).map
          (fun mo => finalDepth M mo.id) := by
  have h := jget_publish_fold (fun mo => finalDepth M mo.id) (modelsOf M) [] k
  simpa [calculateModelDepths, jget] using h

theorem publish_get_id (M : DbtManifest)
    (hsep : ∀ mo ∈ modelsOf M, ∀ mo' ∈ modelsOf M, mo.name ≠ mo'.id)
    {mo : ModelRef} (hmo : mo ∈ modelsOf M) :
    jget (calculateModelDepths M) mo.id = some (finalDepth M mo.id) := by
  rw [calculateModelDepths_get]
  have hsome : ((modelsOf M).reverse.find?
      (fun m2 => mo.id == m2.name || mo.id == m2.id)).isSome := by
    rw [List.find?_isSome]
    exact ⟨mo, List.mem_reverse.mpr hmo, by simp⟩
  obtain ⟨b, hb⟩ := Option.isSome_iff_exists.mp hsome
  rw [hb]
  have hbmem : b ∈ modelsOf M := List.mem_reverse.mp (List.mem_of_find?_eq_some hb)
  have hbp := List.find?_some hb
  rw [Bool.or_eq_true, beq_iff_eq, beq_iff_eq] at hbp
  rcases hbp with hbn | hbi
  · exact absurd hbn.symm (hsep b hbmem mo hmo)
  · rw [Option.map_some', hbi]

theorem publish_get_name (M : DbtManifest)
    (hsep : ∀ mo ∈ modelsOf M, ∀ mo' ∈ modelsOf M, mo.name ≠ mo'.id)
    {l₁ l₂ : List ModelRef} {mo : ModelRef} (hsplit : modelsOf M = l₁ ++ mo :: l₂)
    (hlast : ∀ mo' ∈ l₂, mo'.name ≠ mo.name) :
    jget (calculateModelDepths M) mo.name = some (finalDepth M mo.id) := by
  have hmo : mo ∈ modelsOf M := by
    rw [hsplit]
    exact List.mem_append.mpr (Or.inr (List.mem_cons_self mo l₂))
  rw [calculateModelDepths_get, hsplit, List.reverse_append, List.reverse_cons,
    List.find?_append, List.find?_append]
  have hnone : (l₂.reverse.find? (fun m2 => mo.name == m2.name || mo.name == m2.id))
      = none := by
    rw [List.find?_eq_none]
    intro x hx
    have hxmem : x ∈ modelsOf M := by
      rw [hsplit]
      exact List.mem_append.mpr (Or.inr (List.mem_cons.mpr
        (Or.inr (List.mem_reverse.mp hx))))
    simp only [Bool.or_eq_true, beq_iff_eq, not_or]
    constructor
    · intro hh
      exact hlast x (List.mem_reverse.mp hx) hh.symm
    · intro hh
      exact hsep mo hmo x hxmem hh
  rw [hnone,
    show List.find? (fun m2 => mo.name == m2.name || mo.name == m2.id) [mo] = some mo
      from by simp [List.find?]]
  rfl

theorem calculateModelDepths_keys (M : DbtManifest) (k : String) :
    k ∈ jkeys (calculateModelDepths M)
      ↔ ∃ mo ∈ modelsOf M, k = mo.name ∨ k = mo.id := by
  rw [mem_jkeys_iff_isSome, calculateModelDepths_get]
  constructor
  · intro h
    have hsome : ((modelsOf M).reverse.find?
        (fun mo => k == mo.name || k == mo.id)).isSome := by
      cases hf : (modelsOf M).reverse.find? (fun mo => k == mo.name || k == mo.id) with
      | none => rw [hf] at h; simp at h
      | some b => rfl
    rcases List.find?_isSome.mp hsome with ⟨mo, hmo, hp⟩
    rw [Bool.or_eq_true, beq_iff_eq, beq_iff_eq] at hp
    exact ⟨mo, List.mem_reverse.mp hmo, hp⟩
  · rintro ⟨mo, hmo, hk⟩
    have hsome : ((modelsOf M).reverse.find?
        (fun mo => k == mo.name || k == mo.id)).isSome := by
      rw [List.find?_isSome]
      refine ⟨mo, List.mem_reverse.mpr hmo, ?_⟩
      rw [Bool.or_eq_true, beq_iff_eq, beq_iff_eq]
      exact hk
    cases hf : (modelsOf M).reverse.find? (fun mo => k == mo.name || k == mo.id) with
    | none => rw [hf] at hsome; simp at hsome
    | some b => rfl

/-! Key sets of the two published tables. -/

theorem jkeys_publish_fold {β : Type} (f : ModelRef → β) :
    ∀ (ms : List ModelRef) (t : JMap String β),
      jkeys (ms.foldl (fun t mo => jset (jset t mo.name (f mo)) mo.id (f mo)) t)
        = ms.foldl (fun ks mo => keyAdd (keyAdd ks mo.name) mo.id) (jkeys t) := by
  intro ms
  induction ms with
  | nil => intro t; rfl
  | cons mo ms ih =>
    intro t
    rw [List.foldl_cons, ih, List.foldl_cons, jkeys_jset, jkeys_jset]

theorem keyAdd_mem (ks : List String) (k x : String) :
    x ∈ keyAdd ks k ↔ (x ∈ ks ∨ x = k) := by
  unfold keyAdd
  by_cases h : k ∈ ks
  · rw [if_pos h]
    constructor
    · exact Or.inl
    · rintro (hx | hx)
      · exact hx
      · exact hx ▸ h
  · rw [if_neg h]
    simp

theorem keyAdd_of_mem {ks : List String} {k : String} (h : k ∈ ks) :
    keyAdd ks k = ks := if_pos h

theorem keysFold_mem :
    ∀ (ms : List ModelRef) (K : List String) (x : String),
      x ∈ ms.foldl (fun ks mo => keyAdd (keyAdd ks mo.name) mo.id) K
        ↔ (x ∈ K ∨ ∃ mo ∈ ms, x = mo.name ∨ x = mo.id) := by
  intro ms
  induction ms with
  | nil => intro K x; simp
  | cons mo ms ih =>
    intro K x
    rw [List.foldl_cons, ih, keyAdd_mem, keyAdd_mem]
    constructor
    · rintro (((hx | hx) | hx) | ⟨m2, hm2, hx⟩)
      · exact Or.inl hx
      · exact Or.inr ⟨mo, List.mem_cons_self _ _, Or.inl hx⟩
      · exact Or.inr ⟨mo, List.mem_cons_self _ _, Or.inr hx⟩
      · exact Or.inr ⟨m2, List.mem_cons.mpr (Or.inr hm2), hx⟩
    · rintro (hx | ⟨m2, hm2, hx⟩)
      · exact Or.inl (Or.inl (Or.inl hx))
      · rcases List.mem_cons.mp hm2 with hm2 | hm2
        · subst hm2
          rcases hx with hx | hx
          · exact Or.inl (Or.inl (Or.inr hx))
          · exact Or.inl (Or.inr hx)
        · exact Or.inr ⟨m2, hm2, hx⟩

theorem keysFold_id :
    ∀ (ms : List ModelRef) (K : List String),
      (∀ mo ∈ ms, mo.name ∈ K ∧ mo.id ∈ K)
      → ms.foldl (fun ks mo => keyAdd (keyAdd ks mo.name) mo.id) K = K := by
  intro ms
  induction ms with
  | nil => intro K _; rfl
  | cons mo ms ih =>
    intro K h
    have hmo := h mo (List.mem_cons_self _ _)
    rw [List.foldl_cons, keyAdd_of_mem hmo.1, keyAdd_of_mem hmo.2]
    exact ih K (fun m2 hm2 => h m2 (List.mem_cons.mpr (Or.inr hm2)))

theorem bfs_kahn_same_keys (M : DbtManifest) :
    jkeys (calculateModelDepthsBFS M) = jkeys (calculateModelDepths M) := by
  show jkeys ((modelsOf M).foldl
      (fun t mo => jset (jset t mo.name (calculateDepthBFS M mo.id)) mo.id
        (calculateDepthBFS M mo.id))
      ((modelsOf M).foldl (fun t mo => jset (jset t mo.name 0) mo.id 0) []))
    = jkeys ((modelsOf M).foldl
        (fun t mo => jset (jset t mo.name (finalDepth M mo.id)) mo.id
          (finalDepth M mo.id)) [])
  have h1 := jkeys_publish_fold (fun mo => calculateDepthBFS M mo.id) (modelsOf M)
    ((modelsOf M).foldl (fun t mo => jset (jset t mo.name 0) mo.id 0) [])
  have h2 := jkeys_publish_fold (fun _ => (0 : Nat)) (modelsOf M) []
  have h3 := jkeys_publish_fold (fun mo => finalDepth M mo.id) (modelsOf M) []
  rw [h1, h3, h2]
  show (modelsOf M).foldl (fun ks mo => keyAdd (keyAdd ks mo.name) mo.id)
      ((modelsOf M).foldl (fun ks mo => keyAdd (keyAdd ks mo.name) mo.id) [])
    = (modelsOf M).foldl (fun ks mo => keyAdd (keyAdd ks mo.name) mo.id) []
  apply keysFold_id
  intro mo hmo
  constructor
  · exact (keysFold_mem (modelsOf M) [] mo.name).mpr
      (Or.inr ⟨mo, hmo, Or.inl rfl⟩)
  · exact (keysFold_mem (modelsOf M) [] mo.id).mpr
      (Or.inr ⟨mo, hmo, Or.inr rfl⟩)

/-! Final depth values of roots and of nodes with parents. -/

theorem finalDepth_root (M : DbtManifest) (hnd : (modelIds M).Nodup)
    {v : String} (hv : v ∈ modelIds M) (hroot : filteredParents M v = []) :
    finalDepth M v = 1 := by
  have hinv := kinv_kahnState M hnd
  have hqe := kahnState_q_empty M hnd
  have hz : unproc M v (kahnState M).procd = 0 := by
    rw [unproc_zero_iff, hroot]
    intro p hp
    exact absurd hp (List.not_mem_nil p)
  have hπ : v ∈ (kahnState M).procd := by
    rcases (hinv.mem_iff v hv).mpr hz with h | h
    · exact h
    · rw [hqe] at h
      exact absurd h (List.not_mem_nil v)
  have hd := hinv.d_proc v hπ
  rw [hroot] at hd
  unfold finalDepth
  rw [hd]
  unfold initD
  rw [if_pos hroot, mpd_nil]
  omega

theorem finalDepth_parents (M : DbtManifest) (hnd : (modelIds M).Nodup)
    (hclosed : ∀ mo ∈ modelsOf M, ∀ p ∈ filteredParents M mo.id, p ∈ modelIds M)
    (rank : String → Nat)
    (hrank : ∀ mo ∈ modelsOf M, ∀ p ∈ filteredParents M mo.id, rank p < rank mo.id)
    {mo : ModelRef} (hmo : mo ∈ modelsOf M) (hne : filteredParents M mo.id ≠ []) :
    finalDepth M mo.id
      = ((filteredParents M mo.id).map (finalDepth M)).foldr max 0 + 1 := by
  have hv : mo.id ∈ modelIds M := List.mem_map.mpr ⟨mo, hmo, rfl⟩
  have hπ := kahn_complete M hnd hclosed rank hrank mo.id hv
  have hinv := kinv_kahnState M hnd
  have hd := hinv.d_proc _ hπ
  unfold finalDepth
  rw [hd]
  unfold initD
  rw [if_neg hne, mpd_eq_max_add_one _ _ hne,
    show (fun id => (kahnState M).d id) = (kahnState M).d from rfl]
  omega

/-! First-match suffix lookup of `getModelDepth`. -/

theorem jget_cons {β : Type} (a : String) (b : β) (t : JMap String β) (k : String) :
    jget ((a, b) :: t) k = if a = k then some b else jget t k := rfl

theorem find_suffix_first (name : String) :
    ∀ (t : JMap String Nat) (l₁ : List String) (k : String) (l₂ : List String),
      jkeys t = l₁ ++ k :: l₂
      → strEndsWith k ("." ++ name) = true
      → (∀ k' ∈ l₁, strEndsWith k' ("." ++ name) = false)
      → (t.find? (fun kv => strEndsWith kv.1 ("." ++ name))).map Prod.snd
          = jget t k := by
  intro t
  induction t with
  | nil =>
    intro l₁ k l₂ hsplit _ _
    exact absurd hsplit (by cases l₁ <;> simp [jkeys])
  | cons kv t ih =>
    obtain ⟨a, b⟩ := kv
    intro l₁ k l₂ hsplit hk hl₁
    rw [jkeys_cons] at hsplit
    cases l₁ with
    | nil =>
      rw [List.nil_append] at hsplit
      have hak : a = k := (List.cons.injEq _ _ _ _ ▸ hsplit).1
      rw [jget_cons, if_pos hak]
      rw [← hak] at hk
      simp [List.find?, hk]
    | cons x l₁' =>
      rw [List.cons_append] at hsplit
      have hax : a = x := (List.cons.injEq _ _ _ _ ▸ hsplit).1
      have hrest : jkeys t = l₁' ++ k :: l₂ := (List.cons.injEq _ _ _ _ ▸ hsplit).2
      have hxfalse : strEndsWith x ("." ++ name) = false :=
        hl₁ x (List.mem_cons_self _ _)
      have hafalse : strEndsWith a ("." ++ name) = false := hax ▸ hxfalse
      have hak : ¬ a = k := by
        intro hh
        rw [hh] at hafalse
        rw [hafalse] at hk
        exact Bool.noConfusion hk
      rw [jget_cons, if_neg hak]
      have hstep : (((a, b) :: t).find? (fun kv => strEndsWith kv.1 ("." ++ name)))
          = t.find? (fun kv => strEndsWith kv.1 ("." ++ name)) := by
        simp [List.find?, hafalse]
      rw [hstep]
      exact ih l₁' k l₂ hrest hk (fun k' hk' => hl₁ k' (List.mem_cons.mpr (Or.inr hk')))

/-! The dynamic computation on non-throwing inputs. -/

theorem collectParents_eq (M : DynManifest) (pm : JMap String PMVal)
    (hpm : M.parent_map = some pm) :
    ∀ ms : List ModelRef,
      (∀ mo ∈ ms, jget pm mo.id ≠ some (PMVal.nonArr true))
      → collectParents M ms
          = .ok (ms.map (fun mo => (mo.id, rawOfEntry (jget pm mo.id)))) := by
  intro ms
  induction ms with
  | nil => intro _; rfl
  | cons mo ms ih =>
    intro h
    have hmo := h mo (List.mem_cons_self _ _)
    have hdr : dynRawParents M mo.id = .ok (rawOfEntry (jget pm mo.id)) := by
      unfold dynRawParents
      rw [hpm]
      show (match jget pm mo.id with
          | none => Except.ok []
          | some (PMVal.arr xs) => Except.ok xs
          | some (PMVal.nonArr true) => Except.error ()
          | some (PMVal.nonArr false) => Except.ok [])
        = Except.ok (rawOfEntry (jget pm mo.id))
      cases he : jget pm mo.id with
      | none => rfl
      | some v =>
        cases v with
        | arr xs => rfl
        | nonArr b =>
          cases b with
          | true => exact absurd he hmo
          | false => rfl
    unfold collectParents
    rw [hdr, ih (fun m2 hm2 => h m2 (List.mem_cons.mpr (Or.inr hm2)))]
    rfl

/-! The claims. -/

/-- C1 (amended): for every acyclic input — acyclicity expressed as the
existence of a topological rank for the filtered parent relation — in which
every retained (`model.`-prefixed) parent reference resolves to a
participating node and no model's name shadows another model's id, every
participating node with at least one retained parent is published with
depth `1 + max(published depth of its retained parents)`; and on Scenario C
the published depths are a=1, b=1, c=2, d=3, target=4. -/
theorem c1_longest_path_equation :
    (∀ (M : DbtManifest) (rank : String → Nat),
      (modelIds M).Nodup
      → (∀ mo ∈ modelsOf M, ∀ p ∈ filteredParents M mo.id, p ∈ modelIds M)
      → (∀ mo ∈ modelsOf M, ∀ p ∈ filteredParents M mo.id, rank p < rank mo.id)
      → (∀ mo ∈ modelsOf M, ∀ mo' ∈ modelsOf M, mo.name ≠ mo'.id)
      → ∀ mo ∈ modelsOf M, filteredParents M mo.id ≠ []
      → jget (calculateModelDepths M) mo.id
          = some (1 + ((filteredParents M mo.id).map
              (fun p => (jget (calculateModelDepths M) p).getD 0)).foldr max 0)
        ∧ ∀ p ∈ filteredParents M mo.id, (jget (calculateModelDepths M) p).isSome)
    ∧ (jget (calculateModelDepths scenarioC) "a" = some 1
        ∧ jget (calculateModelDepths scenarioC) "b" = some 1
        ∧ jget (calculateModelDepths scenarioC) "c" = some 2
        ∧ jget (calculateModelDepths scenarioC) "d" = some 3
        ∧ jget (calculateModelDepths scenarioC) "target" = some 4) := by
  constructor
  · intro M rank hnd hclosed hrank hsep mo hmo hne
    have hpub : ∀ p ∈ filteredParents M mo.id,
        jget (calculateModelDepths M) p = some (finalDepth M p) := by
      intro p hp
      have hpV : p ∈ modelIds M := hclosed mo hmo p hp
      rcases List.mem_map.mp hpV with ⟨mp, hmp, hid⟩
      rw [← hid]
      exact publish_get_id M hsep hmp
    constructor
    · rw [publish_get_id M hsep hmo,
        finalDepth_parents M hnd hclosed rank hrank hmo hne]
      have hmap : (filteredParents M mo.id).map
          (fun p => (jget (calculateModelDepths M) p).getD 0)
          = (filteredParents M mo.id).map (finalDepth M) := by
        apply List.map_congr_left
        intro p hp
        rw [hpub p hp]
        rfl
      rw [hmap]
      congr 1
      omega
    · intro p hp
      rw [hpub p hp]
      rfl
  · exact ⟨by decide, by decide, by decide, by decide, by decide⟩

/-- Witness for C1's amended statement, instantiated at Scenario C's
`target` node with the explicit topological rank `scenarioCRank`. -/
theorem c1_longest_path_equation_witness :
    jget (calculateModelDepths scenarioC) "model.test.target"
      = some (1 + ((filteredParents scenarioC "model.test.target").map
          (fun p => (jget (calculateModelDepths scenarioC) p).getD 0)).foldr max 0)
    ∧ ∀ p ∈ filteredParents scenarioC "model.test.target",
        (jget (calculateModelDepths scenarioC) p).isSome :=
  c1_longest_path_equation.1 scenarioC scenarioCRank (by decide) (by decide)
    (by decide) (by decide) ⟨"target", "model.test.target"⟩ (by decide) (by decide)

/-- Counterexample to C1 as stated: `phantomManifest` is acyclic
(`phantomRank` is a topological rank for it) and node `c` has the
participating parent `p`, yet `c`'s published depth is not
`1 + max(published depth of its participating parents)` — the dangling
`model.ghost` reference keeps `p` at in-degree 1 forever, so both stay 0. -/
theorem c1_counterexample :
    (∀ mo ∈ modelsOf phantomManifest, ∀ p ∈ filteredParents phantomManifest mo.id,
        phantomRank p < phantomRank mo.id)
    ∧ "model.t.p" ∈ modelIds phantomManifest
    ∧ "model.t.p" ∈ filteredParents phantomManifest "model.t.c"
    ∧ jget (calculateModelDepths phantomManifest) "model.t.c"
        ≠ some (1 + ((filteredParents phantomManifest "model.t.c").map
            (fun p => (jget (calculateModelDepths phantomManifest) p).getD 0)).foldr
              max 0) :=
  ⟨by decide, by decide, by decide, by decide⟩

/-- C2 (amended): provided no model's name shadows another model's id, a
participating node none of whose parents pass the `model.` prefix filter is
published with depth exactly 1. -/
theorem c2_root_depth_one :
    ∀ (M : DbtManifest),
      (modelIds M).Nodup
      → (∀ mo ∈ modelsOf M, ∀ mo' ∈ modelsOf M, mo.name ≠ mo'.id)
      → ∀ mo ∈ modelsOf M, filteredParents M mo.id = []
      → jget (calculateModelDepths M) mo.id = some 1 := by
  intro M hnd hsep mo hmo hroot
  rw [publish_get_id M hsep hmo,
    finalDepth_root M hnd (List.mem_map.mpr ⟨mo, hmo, rfl⟩) hroot]

/-- Witness for C2's amended statement at Scenario C's root `a`. -/
theorem c2_root_depth_one_witness :
    jget (calculateModelDepths scenarioC) "model.test.a" = some 1 :=
  c2_root_depth_one scenarioC (by decide) (by decide) ⟨"a", "model.test.a"⟩
    (by decide) (by decide)

/-- Counterexample to C2 as stated: in the acyclic `phantomManifest`, node
`p`'s parent set restricted to participating nodes is empty (its only
parent is the dangling `model.ghost`, which is no node at all), so `p` is a
root in the claim's sense, yet its published depth is 0, not 1. -/
theorem c2_counterexample :
    (∀ mo ∈ modelsOf phantomManifest, ∀ p ∈ filteredParents phantomManifest mo.id,
        phantomRank p < phantomRank mo.id)
    ∧ "model.t.p" ∈ modelIds phantomManifest
    ∧ (filteredParents phantomManifest "model.t.p").filter
        (fun p => decide (p ∈ modelIds phantomManifest)) = []
    ∧ jget (calculateModelDepths phantomManifest) "model.t.p" = some 0
    ∧ jget (calculateModelDepths phantomManifest) "model.t.p" ≠ some 1 :=
  ⟨by decide, by decide, by decide, by decide, by decide⟩

/-- C3 (amended): the per-node BFS table and the Kahn-style topological
table always have the same keys, in the same iteration order — but they are
not identical tables: their depth values differ (see the counterexample). -/
theorem c3_tables_same_keys :
    ∀ M : DbtManifest,
      jkeys (calculateModelDepthsBFS M) = jkeys (calculateModelDepths M) :=
  bfs_kahn_same_keys

/-- Counterexample to C3 as stated: on Scenario A the BFS table stores 0
for the root `a` where the topological table stores 1, so the two tables
are different. -/
theorem c3_counterexample :
    jget (calculateModelDepthsBFS scenarioA) "a" = some 0
    ∧ jget (calculateModelDepths scenarioA) "a" = some 1
    ∧ calculateModelDepthsBFS scenarioA ≠ calculateModelDepths scenarioA :=
  ⟨by decide, by decide, by decide⟩

/-- C4: `getModelDepth` returns the table value at the exact key when
present; otherwise the value of the first table key (in iteration order)
ending with `"." + name`; otherwise `none` — and a miss is a `none` result,
never an error. -/
theorem c4_lookup_spec :
    ∀ (t : JMap String Nat) (name : String),
      (∀ d, jget t name = some d → getModelDepth t name = some d)
      ∧ (jget t name = none
          → ∀ l₁ k l₂, jkeys t = l₁ ++ k :: l₂
            → strEndsWith k ("." ++ name) = true
            → (∀ k' ∈ l₁, strEndsWith k' ("." ++ name) = false)
            → getModelDepth t name = jget t k)
      ∧ (jget t name = none
          → (∀ k ∈ jkeys t, strEndsWith k ("." ++ name) = false)
          → getModelDepth t name = none) := by
  intro t name
  refine ⟨?_, ?_, ?_⟩
  · intro d h
    unfold getModelDepth
    rw [h]
  · intro hnone l₁ k l₂ hsplit hk hl₁
    unfold getModelDepth
    rw [hnone]
    exact find_suffix_first name t l₁ k l₂ hsplit hk hl₁
  · intro hnone hall
    unfold getModelDepth
    rw [hnone]
    have hfind : t.find? (fun kv => strEndsWith kv.1 ("." ++ name)) = none := by
      rw [List.find?_eq_none]
      intro kv hkv
      have hkm : kv.1 ∈ jkeys t := List.mem_map.mpr ⟨kv, hkv, rfl⟩
      simp [hall kv.1 hkm]
    rw [hfind]
    rfl

/-- Witness for C4: the specification's own example — key
`"pkg.staging_users" → 1` and no direct key, looked up as
`"staging_users"`, resolves to 1 by suffix match. -/
theorem c4_lookup_spec_witness :
    getModelDepth [("pkg.staging_users", 1)] "staging_users" = some 1 := by
  have h := (c4_lookup_spec [("pkg.staging_users", 1)] "staging_users").2.1
    (by decide) [] "pkg.staging_users" [] (by decide) (by decide) (by decide)
  rw [h]
  decide

/-- C5 (amended): provided no model's name coincides with another model's
id, the published table maps every model's id to its computed depth, maps
every short name to the computed depth of the last model published with
that name (last-write-wins), and contains exactly the names and ids of
participating models as keys. -/
theorem c5_dual_key :
    ∀ (M : DbtManifest),
      (∀ mo ∈ modelsOf M, ∀ mo' ∈ modelsOf M, mo.name ≠ mo'.id)
      → (∀ mo ∈ modelsOf M,
            jget (calculateModelDepths M) mo.id = some (finalDepth M mo.id))
        ∧ (∀ l₁ l₂ (mo : ModelRef), modelsOf M = l₁ ++ mo :: l₂
            → (∀ mo' ∈ l₂, mo'.name ≠ mo.name)
            → jget (calculateModelDepths M) mo.name = some (finalDepth M mo.id))
        ∧ (∀ k, k ∈ jkeys (calculateModelDepths M)
            ↔ ∃ mo ∈ modelsOf M, k = mo.name ∨ k = mo.id) := by
  intro M hsep
  exact ⟨fun mo hmo => publish_get_id M hsep hmo,
    fun l₁ l₂ mo hsplit hlast => publish_get_name M hsep hsplit hlast,
    fun k => calculateModelDepths_keys M k⟩

/-- Witness for C5's amended statement: on Scenario C, node `c`'s id key
and name key both carry its computed depth. -/
theorem c5_dual_key_witness :
    jget (calculateModelDepths scenarioC) "model.test.c"
        = some (finalDepth scenarioC "model.test.c")
    ∧ jget (calculateModelDepths scenarioC) "c"
        = some (finalDepth scenarioC "model.test.c") := by
  have h := c5_dual_key scenarioC (by decide)
  exact ⟨h.1 ⟨"c", "model.test.c"⟩ (by decide),
    h.2.1 [⟨"a", "model.test.a"⟩, ⟨"b", "model.test.b"⟩]
      [⟨"d", "model.test.d"⟩, ⟨"target", "model.test.target"⟩]
      ⟨"c", "model.test.c"⟩ (by decide) (by decide)⟩

/-- Counterexample to C5 as stated: in `shadowManifest` no two models share
a short name — so the claim's last-write-wins exception does not apply —
yet model `model.b` (name `nb`) has its name key mapped to 1 and its id key
mapped to 2, because the later model's *name* `"model.b"` overwrote the
earlier model's *id* key. -/
theorem c5_counterexample :
    (∀ mo ∈ modelsOf shadowManifest, ∀ mo' ∈ modelsOf shadowManifest,
        mo.name = mo'.name → mo = mo')
    ∧ jget (calculateModelDepths shadowManifest) "nb" = some 1
    ∧ jget (calculateModelDepths shadowManifest) "model.b" = some 2 :=
  ⟨by decide, by decide, by decide⟩

/-- C6: every key of the published table is the name or the id of a
participating (`resource_type = "model"`) node; only `model.`-prefixed
parent identifiers ever enter a parent set; and the whole computation
depends on `parent_map` only through the filtered parent lists, so
non-`model.` parents can never influence the table. -/
theorem c6_participation :
    ∀ (M : DbtManifest),
      (∀ k ∈ jkeys (calculateModelDepths M),
          ∃ mo ∈ modelsOf M, k = mo.name ∨ k = mo.id)
      ∧ (∀ id p, p ∈ filteredParents M id → strStartsWith p "model." = true)
      ∧ (∀ M' : DbtManifest, M'.nodes = M.nodes
          → (∀ id, filteredParents M' id = filteredParents M id)
          → calculateModelDepths M' = calculateModelDepths M) := by
  intro M
  refine ⟨?_, ?_, ?_⟩
  · intro k hk
    exact (calculateModelDepths_keys M k).mp hk
  · intro id p hp
    exact filteredParents_startsWith M hp
  · intro M' hnodes hPf
    have hmodels : modelsOf M' = modelsOf M := by
      unfold modelsOf
      rw [hnodes]
    have hPL : parentsLookup M' = parentsLookup M := by
      funext u
      rw [parentsLookup_eq, parentsLookup_eq]
      unfold modelIds
      rw [hmodels, hPf u]
    have hCO : childrenOf M' = childrenOf M := by
      funext u
      rw [childrenOf_eq, childrenOf_eq, hmodels]
      congr 1
      funext mo
      rw [hPf mo.id]
    have hinit : initState M' = initState M := by
      unfold initState
      rw [hmodels, hPL]
    have hks : kahnState M' = kahnState M := by
      unfold kahnState
      rw [hCO, hinit, hmodels]
    have hfd : finalDepth M' = finalDepth M := by
      funext id
      unfold finalDepth
      rw [hks]
    unfold calculateModelDepths
    rw [hmodels, hfd]

/-- Witness for C6 at Scenario C: the key `"a"` of the table belongs to a
participating model. -/
theorem c6_participation_witness :
    ∃ mo ∈ modelsOf scenarioC, "a" = mo.name ∨ "a" = mo.id :=
  (c6_participation scenarioC).1 "a" (by decide)

/-- C7 (amended): a refresh that finds no manifest file, or whose read or
parse throws, leaves the parser state — and hence every lookup — exactly as
it was; but when the parse succeeds and the depth computation itself
throws, the failed refresh leaves the table cleared (the computation clears
it before the first throwing access), not untouched. -/
theorem c7_refresh_failure :
    (∀ st : ParserState, refreshManifest none st = (st, false))
    ∧ (∀ st : ParserState, refreshManifest (some (Except.error ())) st = (st, false))
    ∧ (∀ (st : ParserState) (m : DynManifest),
        calculateModelDepthsDyn m = Except.error ()
        → refreshManifest (some (Except.ok m)) st
            = ({ manifest := some m, modelDepths := [] }, false)) := by
  refine ⟨fun st => rfl, fun st => rfl, ?_⟩
  intro st m h
  unfold refreshManifest
  show (match calculateModelDepthsDyn m with
      | .error _ => (({ manifest := some m, modelDepths := [] } : ParserState), false)
      | .ok t => (({ manifest := some m, modelDepths := t } : ParserState), true))
    = (({ manifest := some m, modelDepths := [] } : ParserState), false)
  rw [h]

/-- Witness for C7's amended statement: refreshing over a stored table with
the parseable-but-degenerate `noPmDynManifest` fails and clears the table. -/
theorem c7_refresh_failure_witness :
    refreshManifest (some (Except.ok noPmDynManifest))
        (⟨none, [("m", 1)]⟩ : ParserState)
      = ({ manifest := some noPmDynManifest, modelDepths := [] }, false) :=
  c7_refresh_failure.2.2 ⟨none, [("m", 1)]⟩ noPmDynManifest rfl

/-- Counterexample to C7 as stated: before the refresh the lookup of `"m"`
returns 1; the refresh with `noPmDynManifest` fails (the computation
throws on the absent `parent_map` and the error is caught, no event fires),
yet the same lookup afterwards returns `none` — the previously published
table was not left untouched. -/
theorem c7_counterexample :
    getModelDepth ((⟨none, [("m", 1)]⟩ : ParserState)).modelDepths "m" = some 1
    ∧ calculateModelDepthsDyn noPmDynManifest = Except.error ()
    ∧ (refreshManifest (some (Except.ok noPmDynManifest))
        (⟨none, [("m", 1)]⟩ : ParserState)).2 = false
    ∧ getModelDepth (refreshManifest (some (Except.ok noPmDynManifest))
        (⟨none, [("m", 1)]⟩ : ParserState)).1.modelDepths "m" = none :=
  ⟨by decide, rfl, rfl, by decide⟩

/-- C8 (amended): when the `parent_map` property is present and no
participating node's entry is a truthy non-array, the computation completes
without raising, and each node's parents are read off its entry — an absent
or falsy entry degrading to "no known parents"; an absent `parent_map`
structure or a truthy non-array entry, however, throws (see the
counterexample). -/
theorem c8_graceful_parents :
    ∀ (M : DynManifest) (pm : JMap String PMVal),
      M.parent_map = some pm
      → (∀ mo ∈ modelsFrom M.nodes, jget pm mo.id ≠ some (PMVal.nonArr true))
      → calculateModelDepthsDyn M
          = Except.ok (calculateModelDepths
              { nodes := M.nodes
                child_map := []
                parent_map := (modelsFrom M.nodes).map
                  (fun mo => (mo.id, rawOfEntry (jget pm mo.id))) }) := by
  intro M pm hpm h
  unfold calculateModelDepthsDyn
  rw [collectParents_eq M pm hpm (modelsFrom M.nodes) h]

/-- Witness for C8's amended statement: in `missingEntryDynManifest`, model
`m` has no `parent_map` entry at all, yet the computation succeeds,
treating it as parentless. -/
theorem c8_graceful_parents_witness :
    calculateModelDepthsDyn missingEntryDynManifest
      = Except.ok (calculateModelDepths
          { nodes := missingEntryDynManifest.nodes
            child_map := []
            parent_map := (modelsFrom missingEntryDynManifest.nodes).map
              (fun mo => (mo.id,
                rawOfEntry (jget [("model.p.n", PMVal.arr ["model.p.m"])] mo.id))) }) :=
  c8_graceful_parents missingEntryDynManifest
    [("model.p.n", PMVal.arr ["model.p.m"])] rfl (by decide)

/-- Counterexample to C8 as stated: with the `parent_map` structure absent
and a participating node present, the computation raises (and is caught
upstream as a failed refresh) instead of completing. -/
theorem c8_counterexample :
    modelsFrom noPmDynManifest.nodes ≠ []
    ∧ calculateModelDepthsDyn noPmDynManifest = Except.error () :=
  ⟨by decide, rfl⟩

/-- C9 (amended): on every input — cyclic ones included — the topological
loop terminates (the fuel `models.length + 1` reaches the empty-queue fixed
point, and more fuel changes nothing) and raises no error; a participating
node on a dependency cycle is never dequeued and its in-degree never
reaches 0; its published depth, however, is not necessarily the sentinel 0:
it retains whatever processed off-cycle ancestors propagated into it (see
the counterexample). -/
theorem c9_cycles :
    ∀ (M : DbtManifest),
      (modelIds M).Nodup
      → ((kahnState M).q = []
          ∧ (∀ k, kahnRun (childrenOf M) ((modelsOf M).length + 1 + k) (initState M)
              = kahnState M))
        ∧ ∀ v, OnCycle M v
            → v ∉ (kahnState M).procd ∧ (kahnState M).g v ≠ 0 := by
  intro M hnd
  exact ⟨⟨kahnState_q_empty M hnd, kahnRun_fuel_spec M hnd⟩,
    fun v hv => ⟨onCycle_not_processed M (kinv_kahnState M hnd) hv,
      onCycle_g_ne_zero M hnd hv⟩⟩

/-- Witness for C9's amended statement at `cycleManifest`: the run drains
its queue, and the cycle node `model.t.b` is never dequeued and keeps a
nonzero in-degree. -/
theorem c9_cycles_witness :
    (kahnState cycleManifest).q = []
    ∧ "model.t.b" ∉ (kahnState cycleManifest).procd
    ∧ (kahnState cycleManifest).g "model.t.b" ≠ 0 := by
  have h := c9_cycles cycleManifest (by decide)
  have h1 : parentStep cycleManifest "model.t.b" "model.t.a" :=
    ⟨by decide, by decide, by decide⟩
  have h2 : parentStep cycleManifest "model.t.a" "model.t.b" :=
    ⟨by decide, by decide, by decide⟩
  have hcyc : OnCycle cycleManifest "model.t.b" :=
    Relation.TransGen.tail (Relation.TransGen.single h1) h2
  exact ⟨h.1.1, (h.2 "model.t.b" hcyc).1, (h.2 "model.t.b" hcyc).2⟩

/-- Counterexample to C9 as stated: in `cycleManifest` the nodes
`model.t.a` and `model.t.b` form a participating cycle, yet `model.t.b` is
published with depth 2 — the processed root `model.t.r` propagated into it
— not left at the sentinel 0. -/
theorem c9_counterexample :
    "model.t.a" ∈ filteredParents cycleManifest "model.t.b"
    ∧ "model.t.b" ∈ filteredParents cycleManifest "model.t.a"
    ∧ jget (calculateModelDepths cycleManifest) "model.t.b" = some 2
    ∧ jget (calculateModelDepths cycleManifest) "model.t.b" ≠ some 0 :=
  ⟨by decide, by decide, by decide, by decide⟩

/-- C10: whenever `getModelDepth` finds a stored depth `d`, the decoration
renders exactly `(d + 1)` and the hover text reports the DAG depth `d + 1`
— the stored depth is incremented by exactly one at display time, so a node
stored with depth 0 is shown as `(1)`. -/
theorem c10_display_increment :
    ∀ (cfg : DepthyConfig) (t : JMap String Nat) (name : String) (d : Nat),
      getModelDepth t name = some d
      → (decorationForRef cfg t name).map DepthDecoration.contentText
          = some ("(" ++ toString (d + 1) ++ ")")
        ∧ hoverForRef t name = some (hoverDepthText name d)
        ∧ hoverDepthText name d
            = "The referenced model `" ++ name ++ "` has a DAG depth of "
              ++ toString (d + 1) ++ ".\n\n"
              ++ "The longest path of models between a source and `" ++ name
              ++ "` is " ++ toString (d + 1) ++ " nodes long.\n\n"
              ++ "Annotation created by extension: dbt Depthy" := by
  intro cfg t name d h
  refine ⟨?_, ?_, rfl⟩
  · unfold decorationForRef
    rw [h]
    rfl
  · unfold hoverForRef
    rw [h]
    rfl

/-- Witness for C10: with an empty configuration and stored depth 0, the
decoration shows `(1)`. -/
theorem c10_display_increment_witness :
    (decorationForRef ⟨none, none, none, none, none⟩ [("m", 0)] "m").map
        DepthDecoration.contentText = some "(1)"
    ∧ hoverForRef [("m", 0)] "m" = some (hoverDepthText "m" 0) := by
  have h := c10_display_increment ⟨none, none, none, none, none⟩ [("m", 0)] "m" 0
    (by decide)
  exact ⟨by rw [h.1]; rfl, h.2.1⟩

end Depthy
